import Mathlib

/-!
Verification development for the loadshedding_GP genetic-programming engine.

The Python sources are shallowly embedded: pure computations become Lean
functions over `ℚ`-valued expression trees; randomized choices are modelled
by explicit draw oracles (so that every outcome the interpreter could produce
is a possible parameter value); fallible code returns `Option`/`Except`.
Mutable object-graph behaviour (node aliasing, in-place splicing) is modelled
by an explicit heap of node records addressed by allocation ids, mirroring
Python object identity.
-/

namespace GP

/-- Embeds the `GPAtom.py` class hierarchy: `Constant`, `Variable`,
`ConstantRange` and `Operator`.  An `Operator`'s arity is the declared length
of its evaluation procedure's parameter list; the procedure itself is carried
as a total function on argument lists (validated against the arity before
application, as in `Atom._validate_args`). -/
inductive Atom where
  | Const (value : ℚ) (name : String)
  | Var (name : String) (value : Option ℚ)
  | CRange (lower upper : ℚ)
  | Op (name : String) (ar : Nat) (proc : List ℚ → ℚ)

/-- `Atom.arity`: 0 for every terminal, the declared arity for an operator. -/
def Atom.arity : Atom → Nat
  | .Const _ _ => 0
  | .Var _ _ => 0
  | .CRange _ _ => 0
  | .Op _ ar _ => ar

/-- `Atom.is_parameterized`: true exactly for `Variable`. -/
def Atom.isParameterized : Atom → Bool
  | .Var _ _ => true
  | _ => false

/-- `str(atom)`: the display name used as the keyword-binding key in
`Node.eval`. -/
def Atom.atomName : Atom → String
  | .Const _ nm => nm
  | .Var nm _ => nm
  | .CRange _ _ => "<Unbound anon>"
  | .Op nm _ _ => nm

/-- `Atom.eval(*args)` / subclass overrides, with `_validate_args`:
an arity mismatch raises (`none`); an unbound `Variable` raises (`none`);
`ConstantRange.eval` returns 0. -/
def Atom.evalA : Atom → List ℚ → Option ℚ
  | .Const v _, args => if args.length = 0 then some v else none
  | .Var _ val, args =>
      match val with
      | none => none
      | some v => if args.length = 0 then some v else none
  | .CRange _ _, args => if args.length = 0 then some (0 : ℚ) else none
  | .Op _ ar f, args => if args.length = ar then some (f args) else none

/-- `Atom.instance()`: the identity for every atom except `ConstantRange`,
which samples a fresh `Constant`.  The sampled value is produced by the
stored `choose` callable (by default uniform in the range, but user
replaceable), so it is left unconstrained here; the printed name of the
sampled constant is likewise unconstrained. -/
inductive InstanceOf : Atom → Atom → Prop where
  | const (v : ℚ) (nm : String) : InstanceOf (.Const v nm) (.Const v nm)
  | varr (nm : String) (val : Option ℚ) : InstanceOf (.Var nm val) (.Var nm val)
  | range (lo hi v : ℚ) (nm : String) : InstanceOf (.CRange lo hi) (.Const v nm)
  | oper (nm : String) (ar : Nat) (f : List ℚ → ℚ) :
      InstanceOf (.Op nm ar f) (.Op nm ar f)

theorem InstanceOf.arity_eq {a b : Atom} (h : InstanceOf a b) :
    b.arity = a.arity := by
  cases h <;> rfl

/-- A `ParseTree.Node` as a pure value: an atom plus an ordered list of
children (`GPParseTree.py`).  Object identity and in-place mutation are
modelled separately by the heap embedding further below. -/
inductive PNode where
  | mk (atom : Atom) (children : List PNode)

def PNode.atom : PNode → Atom
  | .mk a _ => a

def PNode.children : PNode → List PNode
  | .mk _ cs => cs

instance : Inhabited PNode := ⟨.mk (.Const 0 "0.00") []⟩

/-- The structural invariant: at every node the number of children equals the
node's atom arity (spec section 8, first testable property). -/
inductive WFT : PNode → Prop where
  | mk (a : Atom) (cs : List PNode) :
      cs.length = a.arity → (∀ c ∈ cs, WFT c) → WFT (.mk a cs)

theorem WFT.length_eq {t : PNode} (h : WFT t) :
    t.children.length = t.atom.arity := by
  cases h; assumption

theorem WFT.child {t : PNode} (h : WFT t) {c : PNode} (hc : c ∈ t.children) :
    WFT c := by
  cases h with
  | mk a cs hlen hcs => exact hcs c hc

/-- `Node.get_depth`: 1 for a terminal node, else 1 + the maximum child
depth. -/
def PNode.getDepth : PNode → Nat
  | .mk a cs =>
      if a.arity = 0 then 1
      else 1 + (cs.attach.map (fun c => PNode.getDepth c.1)).foldr max 0
decreasing_by
  simp_wf
  have := List.sizeOf_lt_of_mem c.2
  omega

theorem PNode.getDepth_mk (a : Atom) (cs : List PNode) :
    (PNode.mk a cs).getDepth =
      if a.arity = 0 then 1 else 1 + (cs.map PNode.getDepth).foldr max 0 := by
  rw [PNode.getDepth]
  congr 1
  rw [List.attach_map_coe]

theorem PNode.one_le_getDepth (t : PNode) : 1 ≤ t.getDepth := by
  cases t with
  | mk a cs =>
      rw [PNode.getDepth_mk]
      split <;> omega

/-- `Node.is_parameterized`: whether the subtree contains a `Variable`. -/
def PNode.isParamN : PNode → Bool
  | .mk a cs => a.isParameterized || (cs.attach.map (fun c => PNode.isParamN c.1)).any id
decreasing_by
  simp_wf
  have := List.sizeOf_lt_of_mem c.2
  omega

theorem PNode.isParamN_mk (a : Atom) (cs : List PNode) :
    (PNode.mk a cs).isParamN = (a.isParameterized || (cs.map PNode.isParamN).any id) := by
  rw [PNode.isParamN]
  congr 2
  rw [List.attach_map_coe]

mutual

/-- `Node.eval(**kwargs)` (concrete evaluation, `symbolic=False`): a terminal
whose display name matches a binding key is bound to that value first (a
non-`Variable` terminal with a matching key crashes: the code calls `.bind`
on it); otherwise the atom is evaluated over the already-evaluated children.
Bindings are threaded functionally: the transient in-place `Variable.bind`
of the source is visible only within the single evaluation call modelled
here. -/
def PNode.evalT (args : List (String × ℚ)) : PNode → Option ℚ
  | .mk a cs =>
      if a.arity = 0 then
        match args.lookup a.atomName with
        | some b => match a with
            | .Var _ _ => some b
            | _ => none
        | none => a.evalA []
      else
        match PNode.evalList args cs with
        | some vs => a.evalA vs
        | none => none

/-- Left-to-right evaluation of a child list, failing at the first failing
child (the source consumes a generator of child evaluations). -/
def PNode.evalList (args : List (String × ℚ)) : List PNode → Option (List ℚ)
  | [] => some []
  | c :: rest =>
      match PNode.evalT args c, PNode.evalList args rest with
      | some v, some vs => some (v :: vs)
      | _, _ => none

end


/-! ## Randomized tree construction (`ParseTree.random` / `_fill_level`) -/

/-- The candidate pool `_fill_level` draws a child atom from: the terminal
set alone when fewer than two levels remain, else terminals and operators
combined. -/
def poolFor (T O : List Atom) (r : Nat) : List Atom :=
  if r < 2 then T else T ++ O

/-- The set of trees `_fill_level(root, r, T, O)` can leave below a root
node: the root keeps its atom and receives exactly `arity` children, each
child's atom being `instance()` of a draw from `poolFor T O r`, each child
subtree filled recursively with `r - 1` remaining levels. -/
inductive Produces (T O : List Atom) : Nat → PNode → Prop where
  | node (a : Atom) (r : Nat) (cs : List PNode)
      (hlen : cs.length = a.arity)
      (hsel : ∀ c ∈ cs, ∃ b ∈ poolFor T O r, InstanceOf b c.atom)
      (hrec : ∀ c ∈ cs, Produces T O (r - 1) c) :
      Produces T O r (.mk a cs)

/-- The set of trees `ParseTree.random(max_depth, T, O, force_trivial)` can
return: the depth precondition, a root atom instanced from the operator set
(from the combined-with-terminals set only when `max_depth <= 1`), and the
children filled with `max_depth - 1` remaining levels. -/
def RandomGen (maxDepth : Nat) (T O : List Atom) (forceTrivial : Bool)
    (t : PNode) : Prop :=
  (2 ≤ maxDepth ∨ forceTrivial = true) ∧
  (∃ b ∈ (if 1 < maxDepth then O else T), InstanceOf b t.atom) ∧
  Produces T O (maxDepth - 1) t

/-- A member kept by the `FULL` branch of
`PopulationGenerator._generate_serial`: a random tree that passed the
`get_depth() == max_depth` filter. -/
def FullMember (maxDepth : Nat) (T O : List Atom) (forceTrivial : Bool)
    (t : PNode) : Prop :=
  RandomGen maxDepth T O forceTrivial t ∧ t.getDepth = maxDepth

theorem foldr_max_le {l : List Nat} {n : Nat} (h : ∀ x ∈ l, x ≤ n) :
    l.foldr max 0 ≤ n := by
  induction l with
  | nil => exact Nat.zero_le n
  | cons x xs ih =>
      simp only [List.foldr_cons]
      exact max_le (h x (List.mem_cons_self x xs))
        (ih fun y hy => h y (List.mem_cons_of_mem x hy))

theorem le_foldr_max {l : List Nat} {x : Nat} (h : x ∈ l) :
    x ≤ l.foldr max 0 := by
  induction l with
  | nil => cases h
  | cons y ys ih =>
      simp only [List.foldr_cons]
      rcases List.mem_cons.mp h with rfl | hmem
      · exact le_max_left _ _
      · exact le_trans (ih hmem) (le_max_right _ _)

theorem getDepth_of_terminal {a : Atom} {cs : List PNode} (h : a.arity = 0) :
    (PNode.mk a cs).getDepth = 1 := by
  rw [PNode.getDepth_mk, if_pos h]

/-- Every tree `_fill_level` can produce satisfies the arity invariant. -/
theorem Produces.wft {T O : List Atom} {r : Nat} {t : PNode}
    (h : Produces T O r t) : WFT t := by
  induction h with
  | node a r cs hlen hsel hrec ih => exact WFT.mk a cs hlen ih

/-- Depth bound for `_fill_level`: with at least one remaining level and a
terminal set of arity-0 atoms, the produced subtree has depth at most
`r + 1`. -/
theorem Produces.depth_le {T O : List Atom} (hT : ∀ a ∈ T, a.arity = 0)
    {r : Nat} {t : PNode} (h : Produces T O r t) (hr : 1 ≤ r) :
    t.getDepth ≤ r + 1 := by
  induction h with
  | node a r cs hlen hsel hrec ih =>
      rw [PNode.getDepth_mk]
      split
      · omega
      · have hchild : ∀ d ∈ cs.map PNode.getDepth, d ≤ r := by
          intro d hd
          rcases List.mem_map.mp hd with ⟨c, hc, rfl⟩
          by_cases h2 : r < 2
          · -- only terminals available: the child atom has arity 0
            rcases hsel c hc with ⟨b, hb, hinst⟩
            rw [poolFor, if_pos h2] at hb
            have hba : c.atom.arity = 0 := by
              rw [hinst.arity_eq]; exact hT b hb
            cases c with
            | mk ca ccs =>
                simp only [PNode.atom] at hba
                rw [getDepth_of_terminal hba]
                omega
          · have := ih c hc (by omega)
            omega
        have := foldr_max_le hchild
        omega

/-- A `ParseTree.random` tree with an operator root has at least one child,
hence depth at least 2. -/
theorem RandomGen.depth_ge_two {T O : List Atom} {maxd : Nat} {ft : Bool}
    (hO : ∀ a ∈ O, 1 ≤ a.arity) (hmd : 2 ≤ maxd) {t : PNode}
    (h : RandomGen maxd T O ft t) : 2 ≤ t.getDepth := by
  obtain ⟨-, ⟨b, hb, hinst⟩, hp⟩ := h
  rw [if_pos (by omega : 1 < maxd)] at hb
  have har : 1 ≤ t.atom.arity := hinst.arity_eq ▸ hO b hb
  cases hp with
  | node a r cs hlen hsel hrec =>
      rw [PNode.getDepth_mk, if_neg (by simp only [PNode.atom] at har; omega)]
      have hne : cs ≠ [] := by
        intro hnil
        rw [hnil] at hlen
        simp only [PNode.atom] at har
        simp at hlen
        omega
      rcases List.exists_mem_of_ne_nil cs hne with ⟨c, hc⟩
      have h1 : 1 ≤ c.getDepth := PNode.one_le_getDepth c
      have h2 : c.getDepth ≤ (cs.map PNode.getDepth).foldr max 0 :=
        le_foldr_max (List.mem_map_of_mem PNode.getDepth hc)
      omega

/-- Depth bound for `ParseTree.random`: never deeper than `max_depth`. -/
theorem RandomGen.depth_le_maxd {T O : List Atom} {maxd : Nat} {ft : Bool}
    (hT : ∀ a ∈ T, a.arity = 0) (hmd : 1 ≤ maxd) {t : PNode}
    (h : RandomGen maxd T O ft t) : t.getDepth ≤ maxd := by
  obtain ⟨-, hroot, hp⟩ := h
  by_cases h1 : 2 ≤ maxd
  · have := hp.depth_le hT (by omega)
    omega
  · -- max_depth = 1 (trivial generation): the root is drawn from the
    -- terminal set, so the tree is the single terminal node
    have hmd1 : maxd = 1 := by omega
    rcases hroot with ⟨b, hb, hinst⟩
    rw [hmd1, if_neg (by omega)] at hb
    have hba : t.atom.arity = 0 := by rw [hinst.arity_eq]; exact hT b hb
    cases t with
    | mk a cs =>
        simp only [PNode.atom] at hba
        rw [getDepth_of_terminal hba]
        omega

/-! ## C4: invariants of generated trees -/

/-- C4: every tree produced by `ParseTree.random` (hence by
`PopulationGenerator.generate`, whose branches only call `ParseTree.random`
and filter) satisfies the arity invariant at every node; a Grow tree has
depth at most `max_depth`; a Full-kept tree has depth exactly `max_depth`;
and for `max_depth >= 2` (with arity-0 terminals and positive-arity
operators, as the atom model prescribes) the depth is at least 2. -/
theorem generated_tree_invariants (T O : List Atom) (maxd : Nat) (ft : Bool)
    (hT : ∀ a ∈ T, a.arity = 0) (hO : ∀ a ∈ O, 1 ≤ a.arity)
    (hmd : 2 ≤ maxd) :
    (∀ t, RandomGen maxd T O ft t →
        WFT t ∧ t.getDepth ≤ maxd ∧ 2 ≤ t.getDepth) ∧
    (∀ t, FullMember maxd T O ft t → WFT t ∧ t.getDepth = maxd) := by
  constructor
  · intro t h
    exact ⟨h.2.2.wft, h.depth_le_maxd hT (by omega), h.depth_ge_two hO hmd⟩
  · intro t h
    exact ⟨h.1.2.2.wft, h.2⟩

def exVarX : Atom := .Var "x" none

def exAdd : Atom := .Op "add" 2 (fun l => l.foldr (fun x y => x + y) 0)

def exT : List Atom := [exVarX]

def exO : List Atom := [exAdd]

def exTree2 : PNode := .mk exAdd [.mk exVarX [], .mk exVarX []]

theorem exT_arity : ∀ a ∈ exT, a.arity = 0 := by
  intro a ha
  rcases List.mem_singleton.mp ha with rfl
  rfl

theorem exO_arity : ∀ a ∈ exO, 1 ≤ a.arity := by
  intro a ha
  rcases List.mem_singleton.mp ha with rfl
  decide

theorem exTree2_randomGen : RandomGen 2 exT exO false exTree2 := by
  refine ⟨Or.inl (le_refl 2), ⟨exAdd, ?_, ?_⟩, ?_⟩
  · simp [exO]
  · exact InstanceOf.oper _ _ _
  · refine Produces.node exAdd 1 _ rfl ?_ ?_
    · intro c hc
      simp only [List.mem_cons, List.not_mem_nil, or_false] at hc
      refine ⟨exVarX, by simp [poolFor, exT], ?_⟩
      rcases hc with rfl | rfl <;> exact InstanceOf.varr _ _
    · intro c hc
      simp only [List.mem_cons, List.not_mem_nil, or_false] at hc
      rcases hc with rfl | rfl <;>
        exact Produces.node exVarX 0 [] rfl
          (by intro c hc; cases hc) (by intro c hc; cases hc)

theorem generated_tree_invariants_witness :
    (∀ a ∈ exT, a.arity = 0) ∧ (∀ a ∈ exO, 1 ≤ a.arity) ∧
    (WFT exTree2 ∧ exTree2.getDepth ≤ 2 ∧ 2 ≤ exTree2.getDepth) :=
  ⟨exT_arity, exO_arity,
   (generated_tree_invariants exT exO 2 false exT_arity exO_arity
      (le_refl 2)).1 exTree2 exTree2_randomGen⟩

/-! ## C1: population sizes produced by `PopulationGenerator.generate` -/

/-- `PopulationGenerator.Method`. -/
inductive Method where
  | GROW
  | FULL
  | RAMPED
deriving DecidableEq

/-- Chunk sizes of `np.array_split([1]*size, k)` as summed by
`PopulationGenerator.generate`: `size % k` chunks of `size / k + 1` followed
by the rest of `size / k`. -/
def arraySplitSizes (n k : Nat) : List Nat :=
  if k = 0 then []
  else List.replicate (n % k) (n / k + 1) ++ List.replicate (k - n % k) (n / k)

/-- Number of trees `generate(n, d, GROW or FULL)` adds to the buffer:
each nonzero chunk contributes its own size (for FULL, on termination of the
depth-filter retry loop, which the spec flags as potentially unbounded). -/
def growFullGenerateCount (size par : Nat) : Nat :=
  ((arraySplitSizes size par).filter (fun c => c ≠ 0)).sum

/-- Number of trees the RAMPED branch of `_generate_serial` collects,
following the source arithmetic: `n_divisions = max_depth - 1`,
`n_local = size / n_divisions` (floor), `n_half = n_local / 2` (floor),
`n_res_level = n_local - n_half`, `n_res = size - n_local * n_divisions`;
for each depth stratum it generates `n_half` by FULL plus `n_half` by GROW
(when `n_half > 0`) plus `n_res_level` by a randomly chosen method (when
`n_res_level > 0`), and finally one FULL individual per sampled residue
stratum. -/
def rampedSerialCount (size maxd par : Nat) : Nat :=
  let nDiv := maxd - 1
  let nLocal := size / nDiv
  let nHalf := nLocal / 2
  let nResLevel := nLocal - nHalf
  let nRes := size - nLocal * nDiv
  (if 0 < nLocal then
     ((List.range' 2 nDiv).map (fun _ =>
        (if 0 < nHalf then
           growFullGenerateCount nHalf par + growFullGenerateCount nHalf par
         else 0) +
        (if 0 < nResLevel then growFullGenerateCount nResLevel par else 0))).sum
   else 0) + nRes * growFullGenerateCount 1 par

/-- `_generate_serial`: validation (`size >= 1`, `max_depth >= 2` unless
trivial generation is forced), then the per-method tree count. -/
def generateSerialCount (size maxd : Nat) (ft : Bool) (par : Nat) :
    Method → Option Nat
  | m =>
    if size < 1 then none
    else if maxd < 2 ∧ ft = false then none
    else
      match m with
      | .GROW => some size
      | .FULL => some size
      | .RAMPED => some (rampedSerialCount size maxd par)

/-- `PopulationGenerator.generate`: split the request into `parallelization`
chunks, run `_generate_serial` on every nonzero chunk, and return the merged
buffer; the result size is the sum of the per-chunk counts. -/
def generateCount (size maxd : Nat) (m : Method) (par : Nat) (ft : Bool) :
    Option Nat :=
  ((arraySplitSizes size par).filter (fun c => c ≠ 0)).foldr
    (fun c acc =>
      match generateSerialCount c maxd ft par m, acc with
      | some a, some b => some (a + b)
      | _, _ => none)
    (some 0)

/-- C1 (code evaluated at the failing input): for `size = 4`,
`max_depth = 3`, `parallelization = 1`, GROW and FULL return exactly 4
trees, but RAMPED returns 6: each of the 2 depth strata receives
`n_half = 1` members by FULL plus `n_half = 1` by GROW plus
`n_res_level = n_local - n_half = 1` extra members, i.e.
`n_local + n_half = 3` members instead of its quota `n_local = 2`.  The
claim that the merged RAMPED result has exactly `size` members fails. -/
theorem ramped_population_count_overshoots :
    generateCount 4 3 Method.GROW 1 false = some 4 ∧
    generateCount 4 3 Method.FULL 1 false = some 4 ∧
    generateCount 4 3 Method.RAMPED 1 false = some 6 ∧ (6 : Nat) ≠ 4 := by
  decide

/-! ## Fitness function (`GPFitnessFunction.py`) -/

inductive FitnessObjective where
  | MINIMISE
  | MAXIMISE
deriving DecidableEq

/-- `FitnessFunction.__init__` state: the aggregator and error metric are
carried as the callables they are in the source (defaults: sum and absolute
error); fitness cases are `(kwargs, target)` pairs. -/
structure FitnessFunction where
  objective : FitnessObjective := .MINIMISE
  fitness_cases : List (List (String × ℚ) × ℚ) := []
  aggregator : List ℚ → ℚ := fun S => S.sum
  error : ℚ → ℚ → ℚ := fun y t => |y - t|
  fitness_max : ℚ := 1000000
  allow_trivial : Bool := false

/-- The signed max-fitness penalty applied to trivial individuals inside
`FitnessFunction._eval`. -/
def trivPenalty (ff : FitnessFunction) : ℚ :=
  match ff.objective with
  | .MINIMISE => ff.fitness_max
  | .MAXIMISE => -ff.fitness_max

/-- The accumulator loop of `FitnessFunction._eval`: one term per bound
fitness case, each term being the per-case error plus (when the individual's
root subtree contains no variable and trivial individuals are disallowed)
the signed max-fitness constant. -/
def FitnessFunction.rawTerms (ff : FitnessFunction) (ind : PNode) :
    List (List (String × ℚ) × ℚ) → Option (List ℚ)
  | [] => some []
  | c :: rest =>
      match ind.evalT c.1, FitnessFunction.rawTerms ff ind rest with
      | some y, some es =>
          some ((ff.error y c.2 +
            (if ind.isParamN = false ∧ ff.allow_trivial = false then
               trivPenalty ff else 0)) :: es)
      | _, _ => none

/-- `FitnessFunction._eval` / `_raw_fitness`: the aggregator applied to the
per-case accumulator; `none` when evaluating the individual raises. -/
def FitnessFunction.raw (ff : FitnessFunction) (ind : PNode) : Option ℚ :=
  (ff.rawTerms ind ff.fitness_cases).map ff.aggregator

/-- `FitnessFunction._standardized_fitness`. -/
def FitnessFunction.standardized (ff : FitnessFunction) (ind : PNode) :
    Option ℚ :=
  match ff.objective, ff.raw ind with
  | .MINIMISE, r => r
  | .MAXIMISE, some r => some (ff.fitness_max - r)
  | .MAXIMISE, none => none

/-- `FitnessFunction._adjusted_fitness` = `1 / (1 + standardized)`;
a zero denominator raises `ZeroDivisionError` (`none`). -/
def FitnessFunction.adjusted (ff : FitnessFunction) (ind : PNode) :
    Option ℚ :=
  match ff.standardized ind with
  | some s => if 1 + s = 0 then none else some (1 / (1 + s))
  | none => none

/-- Raw fitness as the claim words it (`Modelled from the spec words of C3,
for comparison only`): the aggregate over all bound cases of the per-case
error, plus the signed max-fitness constant added exactly once when the
individual is trivial and trivial individuals are disallowed. -/
def claimErrTerms (ff : FitnessFunction) (ind : PNode) :
    List (List (String × ℚ) × ℚ) → Option (List ℚ)
  | [] => some []
  | c :: rest =>
      match ind.evalT c.1, claimErrTerms ff ind rest with
      | some y, some es => some (ff.error y c.2 :: es)
      | _, _ => none

def rawAsClaimed (ff : FitnessFunction) (ind : PNode) : Option ℚ :=
  match claimErrTerms ff ind ff.fitness_cases with
  | some errs =>
      some (ff.aggregator errs +
        (if ind.isParamN = false ∧ ff.allow_trivial = false then
           trivPenalty ff else 0))
  | none => none

def tConst5 : PNode := .mk (.Const 5 "5.00") []

def ffC3 : FitnessFunction :=
  { fitness_cases := [([], 5), ([], 5)] }

/-- C3 counterexample: a variable-free individual (the constant 5) under the
default minimising fitness function with two bound fitness cases, each with
zero error.  The code adds the max-fitness constant inside the per-case
loop, so Raw fitness is `2 * 1000000`, not the claimed
`(sum of errors) + 1000000`. -/
theorem eval_tConst5 : PNode.evalT [] tConst5 = some 5 := by
  rw [tConst5, PNode.evalT]
  rfl

theorem isParamN_tConst5 : tConst5.isParamN = false := by
  rw [tConst5, PNode.isParamN_mk]
  rfl

theorem raw_fitness_penalty_counterexample :
    FitnessFunction.raw ffC3 tConst5 = some 2000000 ∧
    rawAsClaimed ffC3 tConst5 = some 1000000 ∧
    (2000000 : ℚ) ≠ 1000000 := by
  refine ⟨?_, ?_, by norm_num⟩
  · rw [FitnessFunction.raw]
    rw [show ffC3.fitness_cases = [([], 5), ([], 5)] from rfl]
    rw [FitnessFunction.rawTerms, eval_tConst5,
      FitnessFunction.rawTerms, eval_tConst5, FitnessFunction.rawTerms]
    simp [isParamN_tConst5, ffC3, trivPenalty]
    norm_num
  · rw [rawAsClaimed]
    rw [show ffC3.fitness_cases = [([], 5), ([], 5)] from rfl]
    rw [claimErrTerms, eval_tConst5, claimErrTerms, eval_tConst5, claimErrTerms]
    simp [isParamN_tConst5, ffC3, trivPenalty]

/-- C3 amended: with the default sum aggregator and at least one bound case,
for a variable-free individual with trivial individuals disallowed, the Raw
fitness equals the sum of the per-case errors plus the signed max-fitness
constant added once per bound fitness case. -/
theorem raw_fitness_adds_penalty_per_case (ff : FitnessFunction) (ind : PNode)
    (hAgg : ff.aggregator = fun S => S.sum)
    (htr : ind.isParamN = false) (hat : ff.allow_trivial = false)
    (hev : ∀ c ∈ ff.fitness_cases, (ind.evalT c.1).isSome = true) :
    ff.raw ind =
      some ((ff.fitness_cases.map
              (fun c => ff.error ((ind.evalT c.1).getD 0) c.2)).sum
            + ff.fitness_cases.length * trivPenalty ff) := by
  rw [FitnessFunction.raw, hAgg]
  have key : ∀ cl : List (List (String × ℚ) × ℚ),
      (∀ c ∈ cl, (ind.evalT c.1).isSome = true) →
      ff.rawTerms ind cl =
        some (cl.map (fun c =>
          ff.error ((ind.evalT c.1).getD 0) c.2 + trivPenalty ff)) := by
    intro cl
    induction cl with
    | nil => intro _; rfl
    | cons c rest ih =>
        intro hall
        have hc := hall c (List.mem_cons_self c rest)
        rcases Option.isSome_iff_exists.mp hc with ⟨y, hy⟩
        rw [FitnessFunction.rawTerms, hy,
          ih (fun d hd => hall d (List.mem_cons_of_mem c hd))]
        simp [htr, hat, hy]
  rw [key ff.fitness_cases hev]
  have hsum : ∀ (l : List (List (String × ℚ) × ℚ)) (e : List (String × ℚ) × ℚ → ℚ) (p : ℚ),
      (l.map (fun c => e c + p)).sum = (l.map e).sum + l.length * p := by
    intro l e p
    induction l with
    | nil => simp
    | cons c rest ih =>
        simp only [List.map_cons, List.sum_cons, List.length_cons, ih]
        push_cast
        ring
  simp only [Option.map]
  rw [hsum]

theorem ffC3_cases_eval : ∀ c ∈ ffC3.fitness_cases,
    (PNode.evalT c.1 tConst5).isSome = true := by
  intro c hc
  have hcc : c = ([], (5 : ℚ)) ∨ c = ([], (5 : ℚ)) := by
    simpa [ffC3] using hc
  rcases hcc with rfl | rfl <;> rw [eval_tConst5] <;> rfl

theorem raw_fitness_adds_penalty_per_case_witness :
    (ffC3.aggregator = fun S => S.sum) ∧ tConst5.isParamN = false ∧
    ffC3.allow_trivial = false ∧
    FitnessFunction.raw ffC3 tConst5 =
      some ((ffC3.fitness_cases.map
              (fun c => ffC3.error ((PNode.evalT c.1 tConst5).getD 0) c.2)).sum
            + ffC3.fitness_cases.length * trivPenalty ffC3) :=
  ⟨rfl, isParamN_tConst5, rfl,
   raw_fitness_adds_penalty_per_case ffC3 tConst5 rfl isParamN_tConst5 rfl
     ffC3_cases_eval⟩

/-! ## C2: tournament selection (`GPSelector.py`) -/

/-- First-occurrence maximum value of a list (`np.max` style helper). -/
def listMax : List ℚ → ℚ
  | [] => 0
  | x :: xs => xs.foldl max x

/-- `np.argmax`: the index of the first occurrence of the maximum value
(numpy's documented tie-breaking). -/
def npArgmax (l : List ℚ) : Nat := l.indexOf (listMax l)

theorem foldl_max_self_or_mem (l : List ℚ) (a : ℚ) :
    l.foldl max a = a ∨ l.foldl max a ∈ l := by
  induction l generalizing a with
  | nil => exact Or.inl rfl
  | cons x xs ih =>
      simp only [List.foldl_cons]
      rcases ih (max a x) with h | h
      · rcases max_choice a x with hm | hm
        · exact Or.inl (h.trans hm)
        · refine Or.inr ?_
          rw [h, hm]
          exact List.mem_cons_self x xs
      · exact Or.inr (List.mem_cons_of_mem x h)

theorem listMax_mem {l : List ℚ} (h : l ≠ []) : listMax l ∈ l := by
  cases l with
  | nil => exact absurd rfl h
  | cons x xs =>
      rw [listMax]
      rcases foldl_max_self_or_mem xs x with h1 | h1
      · rw [h1]; exact List.mem_cons_self x xs
      · exact List.mem_cons_of_mem x h1

theorem le_foldl_max (l : List ℚ) (a : ℚ) : a ≤ l.foldl max a := by
  induction l generalizing a with
  | nil => exact le_refl a
  | cons x xs ih =>
      simp only [List.foldl_cons]
      exact le_trans (le_max_left a x) (ih (max a x))

theorem mem_le_foldl_max {l : List ℚ} {y : ℚ} (h : y ∈ l) (a : ℚ) :
    y ≤ l.foldl max a := by
  induction l generalizing a with
  | nil => cases h
  | cons x xs ih =>
      simp only [List.foldl_cons]
      rcases List.mem_cons.mp h with rfl | hmem
      · exact le_trans (le_max_right a y) (le_foldl_max xs (max a y))
      · exact ih hmem (max a x)

theorem le_listMax {l : List ℚ} {y : ℚ} (h : y ∈ l) : y ≤ listMax l := by
  cases l with
  | nil => cases h
  | cons x xs =>
      rw [listMax]
      rcases List.mem_cons.mp h with rfl | hmem
      · exact le_foldl_max xs y
      · exact mem_le_foldl_max hmem x

/-- The subpopulation `random.choices(population, k=nt)` draws (with
replacement) for tournament selection, the draw oracle giving the chosen
indices; `nt = ceil(proportion * len(population))`. -/
def subpopOf (pop : List PNode) (proportion : ℚ) (draws : List Nat) :
    List PNode :=
  let nt := (Int.ceil (proportion * pop.length)).toNat
  (List.range nt).map (fun j => pop.getD (draws.getD j 0 % pop.length) default)

/-- Adjusted fitness of every member of a list, failing if any member's
fitness raises. -/
def adjL (ff : FitnessFunction) : List PNode → Option (List ℚ)
  | [] => some []
  | t :: rest =>
      match ff.adjusted t, adjL ff rest with
      | some v, some vs => some (v :: vs)
      | _, _ => none

/-- `Selector._select_tournament`: validates the proportion, draws the
subpopulation with replacement, and returns the member at the argmax of the
Adjusted fitnesses. -/
def selectTournament (ff : FitnessFunction) (pop : List PNode)
    (proportion : ℚ) (draws : List Nat) : Option PNode :=
  if ¬(0 < proportion ∧ proportion ≤ 1) then none
  else
    let subpop := subpopOf pop proportion draws
    match adjL ff subpop with
    | some vals => subpop.get? (npArgmax vals)
    | none => none

theorem adjL_length {ff : FitnessFunction} :
    ∀ {l : List PNode} {vs : List ℚ}, adjL ff l = some vs →
      vs.length = l.length := by
  intro l
  induction l with
  | nil => intro vs h; rw [adjL] at h; cases h; rfl
  | cons t rest ih =>
      intro vs h
      rw [adjL] at h
      rcases h1 : ff.adjusted t with _ | v <;> rw [h1] at h
      · cases h
      · rcases h2 : adjL ff rest with _ | vs' <;> rw [h2] at h
        · cases h
        · cases h
          simp [ih h2]

theorem adjL_get {ff : FitnessFunction} :
    ∀ {l : List PNode} {vs : List ℚ}, adjL ff l = some vs →
      ∀ {i : Nat} {v : ℚ}, vs.get? i = some v →
        ∃ t, l.get? i = some t ∧ ff.adjusted t = some v := by
  intro l
  induction l with
  | nil =>
      intro vs h
      rw [adjL] at h
      cases h
      intro i v hv
      cases i <;> cases hv
  | cons t rest ih =>
      intro vs h
      rw [adjL] at h
      rcases h1 : ff.adjusted t with _ | w <;> rw [h1] at h
      · cases h
      · rcases h2 : adjL ff rest with _ | vs' <;> rw [h2] at h
        · cases h
        · cases h
          intro i v hv
          cases i with
          | zero => cases hv; exact ⟨t, rfl, h1⟩
          | succ j => exact ih h2 hv

/-- C2 amended: for any valid proportion and nonempty population whose drawn
members all have computable Adjusted fitness, tournament selection returns
the member of the *drawn* subpopulation (drawn with replacement) attaining
the maximum Adjusted fitness over that subpopulation.  Because the draws
are with replacement, the result need not attain the global maximum even
for proportion 1.0 (see the counterexample). -/
theorem tournament_selects_max_of_drawn (ff : FitnessFunction)
    (pop : List PNode) (p : ℚ) (draws : List Nat)
    (hp : 0 < p ∧ p ≤ 1) (hpop : pop ≠ [])
    (vals : List ℚ) (hvals : adjL ff (subpopOf pop p draws) = some vals) :
    ∃ w, selectTournament ff pop p draws = some w ∧
      ff.adjusted w = some (listMax vals) ∧
      ∀ v ∈ vals, v ≤ listMax vals := by
  have hlen2 := adjL_length hvals
  have hsub : (subpopOf pop p draws).length =
      (Int.ceil (p * pop.length)).toNat := by
    rw [subpopOf]
    simp
  have hnt : 0 < (Int.ceil (p * pop.length)).toNat := by
    have hpos : (0 : ℚ) < p * pop.length := by
      apply mul_pos hp.1
      exact_mod_cast List.length_pos.mpr hpop
    have := Int.ceil_pos.mpr hpos
    omega
  have hvne : vals ≠ [] := by
    intro hnil
    rw [hnil, hsub] at hlen2
    simp at hlen2
    omega
  have hmax_mem : listMax vals ∈ vals := listMax_mem hvne
  have hidx : npArgmax vals < vals.length := by
    rw [npArgmax]
    exact List.indexOf_lt_length.mpr hmax_mem
  have hget : vals.get? (npArgmax vals) = some (listMax vals) := by
    rw [npArgmax]
    exact List.indexOf_get? hmax_mem
  rcases adjL_get hvals hget with ⟨w, hw1, hw2⟩
  refine ⟨w, ?_, hw2, fun v hv => le_listMax hv⟩
  simp only [selectTournament]
  rw [if_neg (not_not_intro hp), hvals]
  exact hw1

def tC0 : PNode := .mk (.Const 0 "0.00") []

def tC1 : PNode := .mk (.Const 1 "1.00") []

def ffC2 : FitnessFunction := { fitness_cases := [([], 0)], allow_trivial := true }

theorem eval_tC0 : PNode.evalT [] tC0 = some 0 := by
  rw [tC0, PNode.evalT]
  rfl

theorem eval_tC1 : PNode.evalT [] tC1 = some 1 := by
  rw [tC1, PNode.evalT]
  rfl

theorem isParamN_tC0 : tC0.isParamN = false := by
  rw [tC0, PNode.isParamN_mk]
  rfl

theorem isParamN_tC1 : tC1.isParamN = false := by
  rw [tC1, PNode.isParamN_mk]
  rfl

theorem raw_tC0 : ffC2.raw tC0 = some 0 := by
  rw [FitnessFunction.raw, show ffC2.fitness_cases = [([], 0)] from rfl,
    FitnessFunction.rawTerms, eval_tC0, FitnessFunction.rawTerms]
  norm_num [show ffC2.allow_trivial = true from rfl,
    show ffC2.error = fun y t => |y - t| from rfl,
    show ffC2.aggregator = fun S => S.sum from rfl]

theorem raw_tC1 : ffC2.raw tC1 = some 1 := by
  rw [FitnessFunction.raw, show ffC2.fitness_cases = [([], 0)] from rfl,
    FitnessFunction.rawTerms, eval_tC1, FitnessFunction.rawTerms]
  norm_num [show ffC2.allow_trivial = true from rfl,
    show ffC2.error = fun y t => |y - t| from rfl,
    show ffC2.aggregator = fun S => S.sum from rfl]

theorem adjusted_tC0 : ffC2.adjusted tC0 = some 1 := by
  rw [FitnessFunction.adjusted, FitnessFunction.standardized, raw_tC0,
    show ffC2.objective = FitnessObjective.MINIMISE from rfl]
  norm_num

theorem adjusted_tC1 : ffC2.adjusted tC1 = some (1/2) := by
  rw [FitnessFunction.adjusted, FitnessFunction.standardized, raw_tC1,
    show ffC2.objective = FitnessObjective.MINIMISE from rfl]
  norm_num

theorem subpopC2_w : subpopOf [tC1, tC0] 1 [1, 0] = [tC0, tC1] := by
  rw [subpopOf]
  norm_num
  rfl

theorem adjLC2_w : adjL ffC2 (subpopOf [tC1, tC0] 1 [1, 0]) = some [1, 1/2] := by
  rw [subpopC2_w, adjL, adjusted_tC0, adjL, adjusted_tC1, adjL]

theorem tournament_selects_max_of_drawn_witness :
    ((0 : ℚ) < 1 ∧ (1 : ℚ) ≤ 1) ∧ ([tC1, tC0] : List PNode) ≠ [] ∧
    (∃ w, selectTournament ffC2 [tC1, tC0] 1 [1, 0] = some w ∧
      ffC2.adjusted w = some (listMax [1, 1/2]) ∧
      ∀ v ∈ [(1 : ℚ), 1/2], v ≤ listMax [1, 1/2]) :=
  ⟨⟨one_pos, le_refl 1⟩, by simp,
   tournament_selects_max_of_drawn ffC2 [tC1, tC0] 1 [1, 0]
     ⟨one_pos, le_refl 1⟩ (by simp) [1, 1/2] adjLC2_w⟩

/-- C2 counterexample: population `[tC1, tC0]` with Adjusted fitnesses
`1/2` and `1`; with `proportion = 1.0` the tournament draws
`random.choices(population, k=2)` *with replacement*, so the draw sequence
`[0, 0]` yields the subpopulation `[tC1, tC1]` and the selector returns
`tC1`, whose Adjusted fitness `1/2` is not the global maximum `1`.  The
claim that the result attains the global maximum for *every* random draw
fails. -/
theorem tournament_misses_global_max :
    selectTournament ffC2 [tC1, tC0] 1 [0, 0] = some tC1 ∧
    ffC2.adjusted tC1 = some (1/2) ∧
    ffC2.adjusted tC0 = some 1 ∧
    ¬((1 : ℚ)/2 = 1) := by
  refine ⟨?_, adjusted_tC1, adjusted_tC0, by norm_num⟩
  have hsub : subpopOf [tC1, tC0] 1 [0, 0] = [tC1, tC1] := by
    rw [subpopOf]
    norm_num
    rfl
  have hadj : adjL ffC2 (subpopOf [tC1, tC0] 1 [0, 0]) = some [1/2, 1/2] := by
    rw [hsub, adjL, adjusted_tC1, adjL, adjusted_tC1, adjL]
  simp only [selectTournament]
  rw [if_neg (not_not_intro ⟨one_pos, le_refl 1⟩), hadj, hsub]
  norm_num [npArgmax, listMax]

/-! ## C5: control-model lifecycle (`GPControlModel.py`) -/

/-- The lifecycle-relevant state of a `ControlModel`: the `_in_progress`
flag, the fitness function's bound cases, and the iteration counter. -/
structure CMState where
  in_progress : Bool
  fitness_cases : List (List (String × ℚ) × ℚ)
  iteration : Nat

/-- `ControlModel.__init__`: `_iteration = 0`, `_in_progress = False`, no
bound cases. -/
def initCMState : CMState :=
  { in_progress := false, fitness_cases := [], iteration := 0 }

/-- `ControlModel.bind_fitness_case(target, **kwargs)`: appends the case in
the configuring state, raises `InvalidOperationStateException` once
evolution is in progress. -/
def bindFitnessCase (s : CMState) (target : ℚ)
    (kwargs : List (String × ℚ)) : Except Unit CMState :=
  if s.in_progress = false then
    .ok { s with fitness_cases := s.fitness_cases ++ [(kwargs, target)] }
  else
    .error ()

/-- The lifecycle effect of `ControlModel.next()`: it unconditionally sets
`_in_progress = True` before surviving/evaluating, and `_converged`
increments `_iteration`; no code path ever resets `_in_progress`. -/
def nextStep (s : CMState) : CMState :=
  { s with in_progress := true, iteration := s.iteration + 1 }

inductive CMOp where
  | bindCase (target : ℚ) (kwargs : List (String × ℚ))
  | next

/-- One lifecycle operation; a rejected `bind_fitness_case` raises, leaving
the state unchanged. -/
def applyOp (s : CMState) : CMOp → CMState
  | .bindCase t kw =>
      match bindFitnessCase s t kw with
      | .ok s' => s'
      | .error _ => s
  | .next => nextStep s

def applyOps (s : CMState) : List CMOp → CMState
  | [] => s
  | op :: rest => applyOps (applyOp s op) rest

/-- C5: before the first `next()` a bind appends the case; `next()` flips
`_in_progress` to true; in that state every `bind_fitness_case` raises and
leaves the bound cases unchanged; and the flag survives any further
sequence of operations (the transition is irreversible). -/
theorem bind_fitness_case_lifecycle (s : CMState) (t : ℚ)
    (kw : List (String × ℚ)) (ops : List CMOp)
    (hs : s.in_progress = false) :
    bindFitnessCase s t kw =
      .ok { s with fitness_cases := s.fitness_cases ++ [(kw, t)] } ∧
    (nextStep s).in_progress = true ∧
    (∀ s' : CMState, s'.in_progress = true →
       bindFitnessCase s' t kw = .error () ∧ applyOp s' (.bindCase t kw) = s') ∧
    (∀ s' : CMState, s'.in_progress = true →
       (applyOps s' ops).in_progress = true) := by
  refine ⟨by rw [bindFitnessCase, if_pos hs], rfl, ?_, ?_⟩
  · intro s' hs'
    constructor
    · rw [bindFitnessCase, if_neg (by rw [hs']; exact fun h => Bool.noConfusion h)]
    · rw [applyOp, bindFitnessCase, if_neg (by rw [hs']; exact fun h => Bool.noConfusion h)]
  · intro s' hs'
    induction ops generalizing s' with
    | nil => exact hs'
    | cons op rest ih =>
        rw [applyOps]
        apply ih
        cases op with
        | bindCase t' kw' =>
            rw [applyOp, bindFitnessCase,
              if_neg (by rw [hs']; exact fun h => Bool.noConfusion h)]
            exact hs'
        | next => rfl

theorem bind_fitness_case_lifecycle_witness :
    initCMState.in_progress = false ∧
    (bindFitnessCase initCMState 0 [] =
      .ok { initCMState with fitness_cases := [([], 0)] } ∧
    (nextStep initCMState).in_progress = true ∧
    (∀ s' : CMState, s'.in_progress = true →
       bindFitnessCase s' 0 [] = .error () ∧ applyOp s' (.bindCase 0 []) = s') ∧
    (∀ s' : CMState, s'.in_progress = true →
       (applyOps s' [CMOp.next, CMOp.bindCase 0 []]).in_progress = true)) :=
  ⟨rfl, bind_fitness_case_lifecycle initCMState 0 [] [CMOp.next, CMOp.bindCase 0 []] rfl⟩

/-! ## C6: fairness weighting in `_fill_level` -/

/-- The child-draw weights `_fill_level` computes, as a function of the
terminal-set size, operator-set size, the `fairness` flag it was called
with, and the remaining levels: uniform weights unless fairness is set and
more than one level remains, in which case each terminal weighs the
operator-set size and each operator the terminal-set size. -/
def fillWeights (nT nO : Nat) (fairness : Bool) (r : Nat) : List Nat :=
  let naturalW := List.replicate (if r < 2 then nT else nT + nO) 1
  let fairW :=
    if r < 2 then naturalW
    else List.replicate nT nO ++ List.replicate nO nT
  if fairness then fairW else naturalW

/-- The fairness flag received by the `_fill_level` call `k` levels below
the root call: the root call receives the caller's flag, but the recursive
call `cls._fill_level(new_child, rem_levels - 1, terminal_set,
operator_set)` omits the keyword, so every deeper call receives the default
`False`. -/
def fillFlag (fairness : Bool) : Nat → Bool
  | 0 => fairness
  | k + 1 => fillFlag false k

/-- C6 (code evaluated at the failing input): with one terminal, two
operators and `max_depth = 4`, the root-level `_fill_level` call
(`rem_levels = 3`) uses the fair weights `[2, 1, 1]`, but the call one
level deeper (`rem_levels = 2`, candidate pool still the union of both
sets) has lost the fairness flag and uses the uniform weights `[1, 1, 1]`.
The claim that fair weights apply at every union-pool level fails. -/
theorem fairness_lost_below_first_level :
    fillFlag true 0 = true ∧
    fillWeights 1 2 (fillFlag true 0) 3 = [2, 1, 1] ∧
    fillFlag true 1 = false ∧
    fillWeights 1 2 (fillFlag true 1) 2 = [1, 1, 1] ∧
    ([1, 1, 1] : List Nat) ≠ [2, 1, 1] := by
  decide

/-- Nested induction principle for `PNode`. -/
theorem PNode.inductionOn {motive : PNode → Prop}
    (h : ∀ (a : Atom) (cs : List PNode), (∀ c ∈ cs, motive c) →
      motive (.mk a cs)) : ∀ t, motive t
  | .mk a cs => h a cs (fun c hc => PNode.inductionOn h c)
decreasing_by
  simp_wf
  have := List.sizeOf_lt_of_mem hc
  omega

/-! ## Paths: the pure shadow of node identity inside one tree

A node object inside a (tree-shaped) Python object graph is identified by
the unique path of child indices from the root; `_linearize` pre-order
enumeration, `get_node_lineage`, `depth_of`, `replace_node` and the
`<`/`>`/`|` lineage relations all translate to path operations. -/

/-- `get_node_lineage`-style subtree lookup along a path. -/
def PNode.subtreeAt : PNode → List Nat → Option PNode
  | t, [] => some t
  | t, i :: p =>
      match t.children.get? i with
      | some c => PNode.subtreeAt c p
      | none => none

/-- `replace_node` along a path: replacing at `[]` reassigns the root;
replacing at `i :: p` is `parent.set_child` at the final index (the path of
the parent plus the index is the path of the replaced child). -/
def PNode.replaceAt : PNode → List Nat → PNode → PNode
  | _, [], s => s
  | .mk a cs, i :: p, s =>
      match cs.get? i with
      | some c => .mk a (cs.set i (PNode.replaceAt c p s))
      | none => .mk a cs

mutual

/-- `Node._linearize(exclude_first, non_terminal, non_parameterized)` as a
list of paths: a node is kept unless excluded by one of the three filters;
children are always visited with `exclude_first = False`. -/
def PNode.linPaths (nt np : Bool) : PNode → Bool → List (List Nat)
  | .mk a cs, ef =>
      (if ef || (decide (a.arity = 0) && nt) ||
          ((PNode.mk a cs).isParamN && np) then ([] : List (List Nat))
       else [[]]) ++ PNode.linAux nt np 0 cs

def PNode.linAux (nt np : Bool) : Nat → List PNode → List (List Nat)
  | _, [] => []
  | i, c :: rest =>
      (PNode.linPaths nt np c false).map (fun p => i :: p) ++
        PNode.linAux nt np (i + 1) rest

end

/-- `random_node()` with no filters enumerates every node in pre-order:
`_linearize` with all flags false. -/
def PNode.pathsOf (t : PNode) : List (List Nat) :=
  PNode.linPaths false false t false

theorem PNode.linAux_mem {nt np : Bool} :
    ∀ {cs : List PNode} {i : Nat} {p : List Nat},
      p ∈ PNode.linAux nt np i cs →
      ∃ j p', p = (i + j) :: p' ∧
        ∃ c, cs.get? j = some c ∧ p' ∈ PNode.linPaths nt np c false := by
  intro cs
  induction cs with
  | nil => intro i p h; rw [PNode.linAux] at h; cases h
  | cons c rest ih =>
      intro i p h
      rw [PNode.linAux] at h
      rcases List.mem_append.mp h with h1 | h1
      · rcases List.mem_map.mp h1 with ⟨p', hp', rfl⟩
        exact ⟨0, p', by rw [Nat.add_zero], c, rfl, hp'⟩
      · rcases ih h1 with ⟨j, p', hp, c', hc', hmem⟩
        refine ⟨j + 1, p', ?_, c', by simpa using hc', hmem⟩
        rw [hp]
        congr 1
        omega

/-- A filtered-enumeration path addresses an existing subtree. -/
theorem PNode.linPaths_subtree {nt np : Bool} :
    ∀ (t : PNode) (ef : Bool) {p : List Nat},
      p ∈ PNode.linPaths nt np t ef → ∃ s, t.subtreeAt p = some s := by
  intro t
  induction t using PNode.inductionOn with
  | _ a cs ih =>
      intro ef p h
      rw [PNode.linPaths] at h
      rcases List.mem_append.mp h with h1 | h1
      · have : p = [] := by
          by_cases hb : (ef || (decide (a.arity = 0) && nt) ||
              ((PNode.mk a cs).isParamN && np)) = true
          · rw [if_pos hb] at h1
            cases h1
          · rw [if_neg hb] at h1
            simpa using h1
        subst this
        exact ⟨.mk a cs, rfl⟩
      · rcases PNode.linAux_mem h1 with ⟨j, p', rfl, c, hc, hmem⟩
        rcases ih c (List.get?_mem hc) false hmem with ⟨s, hs⟩
        refine ⟨s, ?_⟩
        rw [PNode.subtreeAt]
        simp only [PNode.children]
        rw [Nat.zero_add, hc]
        exact hs

theorem PNode.subtreeAt_wf : ∀ {p : List Nat} {t s : PNode},
    WFT t → t.subtreeAt p = some s → WFT s := by
  intro p
  induction p with
  | nil =>
      intro t s hwf h
      rw [PNode.subtreeAt] at h
      cases h
      exact hwf
  | cons i p ih =>
      intro t s hwf h
      rw [PNode.subtreeAt] at h
      rcases h1 : t.children.get? i with _ | c <;> rw [h1] at h
      · cases h
      · exact ih (hwf.child (List.get?_mem h1)) h

theorem depth_child_le {a : Atom} {cs : List PNode} {i : Nat} {c : PNode}
    (hwf : WFT (.mk a cs)) (h1 : cs.get? i = some c) :
    1 + c.getDepth ≤ (PNode.mk a cs).getDepth := by
  have hlen : cs.length = a.arity := by
    have := hwf.length_eq
    simpa [PNode.children, PNode.atom] using this
  have hne : a.arity ≠ 0 := by
    have := (List.get?_eq_some.mp h1).1
    omega
  rw [PNode.getDepth_mk, if_neg hne]
  have := le_foldr_max (List.mem_map_of_mem PNode.getDepth (List.get?_mem h1))
  omega

theorem PNode.subtreeAt_depth : ∀ {p : List Nat} {t s : PNode},
    WFT t → t.subtreeAt p = some s → p.length + s.getDepth ≤ t.getDepth := by
  intro p
  induction p with
  | nil =>
      intro t s hwf h
      rw [PNode.subtreeAt] at h
      cases h
      simp
  | cons i p ih =>
      intro t s hwf h
      rw [PNode.subtreeAt] at h
      rcases h1 : t.children.get? i with _ | c <;> rw [h1] at h
      · cases h
      · have hc := ih (hwf.child (List.get?_mem h1)) h
        cases t with
        | mk a cs =>
            have := depth_child_le hwf (by simpa [PNode.children] using h1)
            simp only [List.length_cons]
            omega

theorem PNode.replaceAt_wf : ∀ {p : List Nat} {t s : PNode} (r : PNode),
    WFT t → t.subtreeAt p = some s → WFT r → WFT (t.replaceAt p r) := by
  intro p
  induction p with
  | nil =>
      intro t s r _ _ hr
      rw [PNode.replaceAt]
      exact hr
  | cons i p ih =>
      intro t s r hwf h hr
      rw [PNode.subtreeAt] at h
      rcases h1 : t.children.get? i with _ | c <;> rw [h1] at h
      · cases h
      · cases t with
        | mk a cs =>
            simp only [PNode.children] at h1
            rw [PNode.replaceAt, h1]
            have hcwf : WFT c := hwf.child (by
              simpa [PNode.children] using List.get?_mem h1)
            refine WFT.mk a _ ?_ ?_
            · rw [List.length_set]
              simpa [PNode.children, PNode.atom] using hwf.length_eq
            · intro x hx
              rcases List.mem_or_eq_of_mem_set hx with hx1 | rfl
              · exact hwf.child (by simpa [PNode.children] using hx1)
              · exact ih r hcwf h hr

theorem PNode.replaceAt_depth : ∀ {p : List Nat} {t s : PNode} (r : PNode),
    WFT t → t.subtreeAt p = some s →
    (t.replaceAt p r).getDepth ≤ max t.getDepth (p.length + r.getDepth) := by
  intro p
  induction p with
  | nil =>
      intro t s r _ _
      rw [PNode.replaceAt]
      simp
  | cons i p ih =>
      intro t s r hwf h
      rw [PNode.subtreeAt] at h
      rcases h1 : t.children.get? i with _ | c <;> rw [h1] at h
      · cases h
      · cases t with
        | mk a cs =>
            simp only [PNode.children] at h1
            rw [PNode.replaceAt, h1]
            have hcwf : WFT c := hwf.child (by
              simpa [PNode.children] using List.get?_mem h1)
            have hchild := depth_child_le hwf h1
            have hne : a.arity ≠ 0 := by
              have hlen : cs.length = a.arity := by
                simpa [PNode.children, PNode.atom] using hwf.length_eq
              have := (List.get?_eq_some.mp h1).1
              omega
            rw [PNode.getDepth_mk, if_neg hne]
            have hielem : ∀ d ∈ (cs.set i (c.replaceAt p r)).map PNode.getDepth,
                d ≤ max ((PNode.mk a cs).getDepth)
                      ((i :: p : List Nat).length + r.getDepth) - 1 := by
              intro d hd
              rcases List.mem_map.mp hd with ⟨x, hx, rfl⟩
              rcases List.mem_or_eq_of_mem_set hx with hx1 | rfl
              · rcases List.mem_iff_get?.mp hx1 with ⟨j, hj⟩
                have := depth_child_le hwf hj
                simp only [List.length_cons]
                omega
              · have := ih r hcwf h
                simp only [List.length_cons]
                omega
            have hfold := foldr_max_le hielem
            have hd1 : 1 ≤ (PNode.mk a cs).getDepth := PNode.one_le_getDepth _
            omega

theorem map_sum_set {f : PNode → Nat} :
    ∀ {cs : List PNode} {i : Nat} {c : PNode} (c' : PNode),
      cs.get? i = some c →
      ((cs.set i c').map f).sum + f c = (cs.map f).sum + f c' := by
  intro cs
  induction cs with
  | nil => intro i c c' h; cases i <;> cases h
  | cons x rest ih =>
      intro i c c' h
      cases i with
      | zero =>
          cases h
          simp only [List.set_cons_zero, List.map_cons, List.sum_cons]
          omega
      | succ j =>
          simp only [List.get?_cons_succ] at h
          simp only [List.set_cons_succ, List.map_cons, List.sum_cons]
          have := ih c' h
          omega

def PNode.sizeT : PNode → Nat
  | .mk _ cs => 1 + (cs.attach.map (fun c => PNode.sizeT c.1)).sum
decreasing_by
  simp_wf
  have := List.sizeOf_lt_of_mem c.2
  omega

theorem PNode.sizeT_mk (a : Atom) (cs : List PNode) :
    (PNode.mk a cs).sizeT = 1 + (cs.map PNode.sizeT).sum := by
  rw [PNode.sizeT]
  congr 2
  rw [List.attach_map_coe]

theorem PNode.one_le_sizeT (t : PNode) : 1 ≤ t.sizeT := by
  cases t with
  | mk a cs => rw [PNode.sizeT_mk]; omega

theorem PNode.sizeT_replaceAt : ∀ {p : List Nat} {t s : PNode} (r : PNode),
    t.subtreeAt p = some s →
    (t.replaceAt p r).sizeT + s.sizeT = t.sizeT + r.sizeT := by
  intro p
  induction p with
  | nil =>
      intro t s r h
      rw [PNode.subtreeAt] at h
      cases h
      rw [PNode.replaceAt]
      omega
  | cons i p ih =>
      intro t s r h
      rw [PNode.subtreeAt] at h
      rcases h1 : t.children.get? i with _ | c <;> rw [h1] at h
      · cases h
      · cases t with
        | mk a cs =>
            simp only [PNode.children] at h1
            rw [PNode.replaceAt, h1, PNode.sizeT_mk, PNode.sizeT_mk]
            have hset := map_sum_set (f := PNode.sizeT) (c.replaceAt p r) h1
            have hrec := ih r h
            omega

/-! ## C7: mutation (`GeneticOperatorSet.mutation`) -/

theorem getD_mod_mem {α : Type} [Inhabited α] (l : List α) (i : Nat)
    (h : l ≠ []) : l.getD (i % l.length) default ∈ l := by
  have hlen : 0 < l.length := List.length_pos.mpr h
  have hlt : i % l.length < l.length := Nat.mod_lt i hlen
  rw [List.getD_eq_getElem?_getD, List.getElem?_eq_getElem hlt]
  exact List.getElem_mem hlt

theorem PNode.pathsOf_ne_nil (t : PNode) : t.pathsOf ≠ [] := by
  cases t with
  | mk a cs =>
      rw [PNode.pathsOf, PNode.linPaths]
      simp

/-- The node `child.random_node()` picks (no filters, root included), as the
path selected by the draw oracle. -/
def chooseNodePath (t : PNode) (draw : Nat) : List Nat :=
  t.pathsOf.getD (draw % t.pathsOf.length) []

theorem chooseNodePath_mem (t : PNode) (draw : Nat) :
    chooseNodePath t draw ∈ t.pathsOf := by
  have := getD_mod_mem t.pathsOf draw (PNode.pathsOf_ne_nil t)
  simpa [chooseNodePath] using this

/-- `subtree_max_depth = max_depth - node_depth + 1` where `max_depth` is
the child's depth and `node_depth = depth_of(removed_subtree)` is the
chosen node's 1-based level (its path length plus one). -/
def mutationBudget (t : PNode) (p : List Nat) : Nat :=
  t.getDepth - (p.length + 1) + 1

/-- `GeneticOperatorSet.mutation` on the (cloned) parent `t`: the node at
the drawn path is replaced by the root of a freshly generated tree of
maximum depth `subtree_max_depth`, with trivial trees allowed when the
budget is below 2. -/
def MutationProduces (T O : List Atom) (t : PNode) (draw : Nat)
    (t' : PNode) : Prop :=
  ∃ r, RandomGen (mutationBudget t (chooseNodePath t draw)) T O
        (decide (mutationBudget t (chooseNodePath t draw) < 2)) r ∧
      t' = t.replaceAt (chooseNodePath t draw) r

theorem exTree2_paths : exTree2.pathsOf = [[], [0], [1]] := by
  rw [exTree2, PNode.pathsOf]
  simp [PNode.linPaths, PNode.linAux]

theorem exTree2_depth : exTree2.getDepth = 2 := by
  have hx : (PNode.mk exVarX []).getDepth = 1 := getDepth_of_terminal rfl
  rw [exTree2, PNode.getDepth_mk,
    if_neg (show ¬exAdd.arity = 0 by rw [show exAdd.arity = 2 from rfl]; omega)]
  rw [List.map_cons, List.map_cons, List.map_nil, hx]
  rfl

/-- C7 counterexample: `mutation` draws the replacement target via
`child.random_node()` (root *included*: `exclude_root` is left at its
default `False`), so the draw can select the root of the cloned parent — on
the depth-2 tree `exTree2` the first enumerated node is the root itself and
the whole clone is replaced.  The claim that the chosen node is never the
root fails. -/
theorem mutation_chooses_root_counterexample :
    chooseNodePath exTree2 0 = [] ∧
    MutationProduces exT exO exTree2 0 exTree2 := by
  have hchoose : chooseNodePath exTree2 0 = [] := by
    rw [chooseNodePath, exTree2_paths]
    rfl
  refine ⟨hchoose, exTree2, ?_, ?_⟩
  · have hb : mutationBudget exTree2 (chooseNodePath exTree2 0) = 2 := by
      rw [hchoose, mutationBudget, exTree2_depth]
      rfl
    rw [hb, show decide (2 < 2) = false from rfl]
    exact exTree2_randomGen
  · rw [hchoose, PNode.replaceAt]

/-- C7 amended: the node chosen for replacement may be *any* node of the
cloned parent, its root included; the freshly generated replacement subtree
has depth at most `(tree depth) - (chosen node's depth) + 1`, and the
mutated child's depth never exceeds the original parent's depth. -/
theorem mutation_depth_bounded (T O : List Atom)
    (hT : ∀ a ∈ T, a.arity = 0) (t : PNode) (hwf : WFT t) (draw : Nat)
    (t' : PNode) (h : MutationProduces T O t draw t') :
    t'.getDepth ≤ t.getDepth ∧
    (∀ r, RandomGen (mutationBudget t (chooseNodePath t draw)) T O
        (decide (mutationBudget t (chooseNodePath t draw) < 2)) r →
      r.getDepth ≤ t.getDepth - ((chooseNodePath t draw).length + 1) + 1) := by
  have hmem := chooseNodePath_mem t draw
  rcases PNode.linPaths_subtree t false hmem with ⟨s, hs⟩
  have hdepths := PNode.subtreeAt_depth hwf hs
  have hs1 := PNode.one_le_getDepth s
  have ht1 := PNode.one_le_getDepth t
  set p := chooseNodePath t draw with hp
  have hplen : p.length + 1 ≤ t.getDepth := by omega
  have hbound : ∀ r, RandomGen (mutationBudget t p) T O
      (decide (mutationBudget t p < 2)) r →
      r.getDepth ≤ t.getDepth - (p.length + 1) + 1 := by
    intro r hr
    have hb1 : 1 ≤ mutationBudget t p := by
      rw [mutationBudget]
      omega
    have := hr.depth_le_maxd hT hb1
    rw [mutationBudget] at this
    omega
  refine ⟨?_, hbound⟩
  rcases h with ⟨r, hr, rfl⟩
  have hrd := hbound r hr
  have hrep := PNode.replaceAt_depth r hwf hs
  have hle : p.length + r.getDepth ≤ t.getDepth := by omega
  rw [max_eq_left hle] at hrep
  exact hrep

def exVarNode : PNode := .mk exVarX []

theorem exVarNode_randomGen1 : RandomGen 1 exT exO true exVarNode := by
  refine ⟨Or.inr rfl, ⟨exVarX, ?_, InstanceOf.varr _ _⟩, ?_⟩
  · rw [if_neg (by omega)]
    simp [exT]
  · exact Produces.node exVarX 0 [] rfl
      (by intro c hc; cases hc) (by intro c hc; cases hc)

theorem mutation_depth_bounded_witness :
    (∀ a ∈ exT, a.arity = 0) ∧ WFT exTree2 ∧
    MutationProduces exT exO exTree2 1 (exTree2.replaceAt [0] exVarNode) ∧
    ((exTree2.replaceAt [0] exVarNode).getDepth ≤ exTree2.getDepth ∧
     (∀ r, RandomGen (mutationBudget exTree2 (chooseNodePath exTree2 1)) exT
         exO (decide (mutationBudget exTree2 (chooseNodePath exTree2 1) < 2)) r →
       r.getDepth ≤
         exTree2.getDepth - ((chooseNodePath exTree2 1).length + 1) + 1)) := by
  have hchoose : chooseNodePath exTree2 1 = [0] := by
    rw [chooseNodePath, exTree2_paths]
    rfl
  have hbudget : mutationBudget exTree2 (chooseNodePath exTree2 1) = 1 := by
    rw [hchoose, mutationBudget, exTree2_depth]
    rfl
  have hwf2 : WFT exTree2 := exTree2_randomGen.2.2.wft
  have hprod : MutationProduces exT exO exTree2 1
      (exTree2.replaceAt [0] exVarNode) := by
    refine ⟨exVarNode, ?_, by rw [hchoose]⟩
    rw [hbudget, show decide (1 < 2) = true from rfl]
    exact exVarNode_randomGen1
  exact ⟨exT_arity, hwf2, hprod,
    mutation_depth_bounded exT exO exT_arity exTree2 hwf2 1 _ hprod⟩

/-! ## C8: editing (constant folding) on variable-free trees -/

theorem isParamN_false_child {a : Atom} {cs : List PNode}
    (h : (PNode.mk a cs).isParamN = false) :
    a.isParameterized = false ∧ ∀ c ∈ cs, c.isParamN = false := by
  rw [PNode.isParamN_mk] at h
  rcases Bool.or_eq_false_iff.mp h with ⟨h1, h2⟩
  refine ⟨h1, ?_⟩
  intro c hc
  have := List.any_eq_false.mp h2 _ (List.mem_map_of_mem PNode.isParamN hc)
  simpa using this

theorem evalList_some_of_all {args : List (String × ℚ)} :
    ∀ {cs : List PNode}, (∀ c ∈ cs, ∃ v, PNode.evalT args c = some v) →
      ∃ vs, PNode.evalList args cs = some vs ∧ vs.length = cs.length := by
  intro cs
  induction cs with
  | nil => intro _; exact ⟨[], rfl, rfl⟩
  | cons c rest ih =>
      intro h
      rcases h c (List.mem_cons_self c rest) with ⟨v, hv⟩
      rcases ih (fun d hd => h d (List.mem_cons_of_mem c hd)) with ⟨vs, hvs, hlen⟩
      refine ⟨v :: vs, ?_, by simp [hlen]⟩
      rw [PNode.evalList, hv, hvs]

/-- A well-formed variable-free tree evaluates (with no bindings) to a
value: no unbound variable and no arity mismatch can occur. -/
theorem evalT_some_of_varfree :
    ∀ t : PNode, WFT t → t.isParamN = false →
      ∃ v, PNode.evalT [] t = some v := by
  intro t
  induction t using PNode.inductionOn with
  | _ a cs ih =>
      intro hwf hvf
      rcases isParamN_false_child hvf with ⟨ha, hcs⟩
      by_cases h0 : a.arity = 0
      · rw [PNode.evalT, if_pos h0]
        rw [show List.lookup a.atomName ([] : List (String × ℚ)) = none from rfl]
        cases a with
        | Const v nm => exact ⟨v, rfl⟩
        | Var nm val => cases ha
        | CRange lo hi => exact ⟨0, rfl⟩
        | Op nm ar f =>
            refine ⟨f [], ?_⟩
            rw [show Atom.evalA (.Op nm ar f) [] =
              if ([] : List ℚ).length = ar then some (f []) else none from rfl]
            rw [if_pos (by simpa [Atom.arity] using h0.symm)]
      · have hall : ∀ c ∈ cs, ∃ v, PNode.evalT [] c = some v := by
          intro c hc
          exact ih c hc (hwf.child (by simpa [PNode.children] using hc))
            (hcs c hc)
        rcases evalList_some_of_all hall with ⟨vs, hvs, hlen⟩
        rw [PNode.evalT, if_neg h0, hvs]
        cases a with
        | Const v nm => exact absurd rfl h0
        | Var nm val => exact absurd rfl h0
        | CRange lo hi => exact absurd rfl h0
        | Op nm ar f =>
            refine ⟨f vs, ?_⟩
            change (Atom.Op nm ar f).evalA vs = some (f vs)
            rw [show Atom.evalA (.Op nm ar f) vs =
              if vs.length = ar then some (f vs) else none from rfl]
            have hlen2 : cs.length = ar := by
              simpa [PNode.children, PNode.atom, Atom.arity] using hwf.length_eq
            rw [if_pos (by omega)]

theorem evalList_set {args : List (String × ℚ)} :
    ∀ {cs : List PNode} {i : Nat} {c : PNode} (c' : PNode),
      cs.get? i = some c → PNode.evalT args c' = PNode.evalT args c →
      PNode.evalList args (cs.set i c') = PNode.evalList args cs := by
  intro cs
  induction cs with
  | nil => intro i c c' h; cases i <;> cases h
  | cons x rest ih =>
      intro i c c' h heq
      cases i with
      | zero =>
          cases h
          rw [List.set_cons_zero, PNode.evalList, PNode.evalList, heq]
      | succ j =>
          simp only [List.get?_cons_succ] at h
          rw [List.set_cons_succ, PNode.evalList, PNode.evalList, ih c' h heq]

/-- Replacing a subtree by one with the same (binding-free) evaluation
preserves the whole tree's evaluation. -/
theorem evalT_replaceAt :
    ∀ {p : List Nat} {t s : PNode} (r : PNode),
      t.subtreeAt p = some s → PNode.evalT [] r = PNode.evalT [] s →
      PNode.evalT [] (t.replaceAt p r) = PNode.evalT [] t := by
  intro p
  induction p with
  | nil =>
      intro t s r h heq
      rw [PNode.subtreeAt] at h
      cases h
      rw [PNode.replaceAt]
      exact heq
  | cons i p ih =>
      intro t s r h heq
      rw [PNode.subtreeAt] at h
      rcases h1 : t.children.get? i with _ | c <;> rw [h1] at h
      · cases h
      · cases t with
        | mk a cs =>
            simp only [PNode.children] at h1
            rw [PNode.replaceAt, h1]
            by_cases h0 : a.arity = 0
            · rw [PNode.evalT, PNode.evalT, if_pos h0, if_pos h0]
            · rw [PNode.evalT, PNode.evalT, if_neg h0, if_neg h0,
                evalList_set (c.replaceAt p r) h1 (ih r h heq)]

/-- Atoms that can actually appear in trees built by this system: ranges
are materialized into constants by `instance()` before insertion, and
operators have positive arity (their evaluation procedures take at least
one argument). -/
def Atom.sysAtom : Atom → Prop
  | .CRange _ _ => False
  | .Op _ ar _ => 1 ≤ ar
  | _ => True

inductive SysAtoms : PNode → Prop where
  | mk (a : Atom) (cs : List PNode) :
      a.sysAtom → (∀ c ∈ cs, SysAtoms c) → SysAtoms (.mk a cs)

theorem SysAtoms.childOf {t : PNode} (h : SysAtoms t) {c : PNode}
    (hc : c ∈ t.children) : SysAtoms c := by
  cases h with
  | mk a cs ha hcs => exact hcs c hc

theorem SysAtoms.atom {t : PNode} (h : SysAtoms t) : t.atom.sysAtom := by
  cases h with
  | mk a cs ha hcs => exact ha

theorem isParamN_replaceAt_false :
    ∀ {p : List Nat} {t s : PNode} (r : PNode),
      t.subtreeAt p = some s → t.isParamN = false → r.isParamN = false →
      (t.replaceAt p r).isParamN = false := by
  intro p
  induction p with
  | nil =>
      intro t s r _ _ hr
      rw [PNode.replaceAt]
      exact hr
  | cons i p ih =>
      intro t s r h ht hr
      rw [PNode.subtreeAt] at h
      rcases h1 : t.children.get? i with _ | c <;> rw [h1] at h
      · cases h
      · cases t with
        | mk a cs =>
            simp only [PNode.children] at h1
            rw [PNode.replaceAt, h1]
            rcases isParamN_false_child ht with ⟨ha, hcs⟩
            rw [PNode.isParamN_mk, ha, Bool.false_or, List.any_eq_false]
            intro x hx
            rcases List.mem_map.mp hx with ⟨y, hy, rfl⟩
            rcases List.mem_or_eq_of_mem_set hy with hy1 | rfl
            · simp [hcs y hy1]
            · simp [ih r h (hcs c (List.get?_mem h1)) hr]

theorem sysAtoms_replaceAt :
    ∀ {p : List Nat} {t s : PNode} (r : PNode),
      t.subtreeAt p = some s → SysAtoms t → SysAtoms r →
      SysAtoms (t.replaceAt p r) := by
  intro p
  induction p with
  | nil =>
      intro t s r _ _ hr
      rw [PNode.replaceAt]
      exact hr
  | cons i p ih =>
      intro t s r h ht hr
      rw [PNode.subtreeAt] at h
      rcases h1 : t.children.get? i with _ | c <;> rw [h1] at h
      · cases h
      · cases t with
        | mk a cs =>
            simp only [PNode.children] at h1
            rw [PNode.replaceAt, h1]
            refine SysAtoms.mk a _ ht.atom ?_
            intro x hx
            rcases List.mem_or_eq_of_mem_set hx with hx1 | rfl
            · exact ht.childOf (by simpa [PNode.children] using hx1)
            · exact ih r h (ht.childOf (by
                simpa [PNode.children] using List.get?_mem h1)) hr

/-- Stands in for the `"{:.2f}"`-formatted display name of a folded
constant; the name plays no role in binding-free evaluation. -/
def constName (v : ℚ) : String := toString v

def constFold (v : ℚ) : PNode := .mk (.Const v (constName v)) []

theorem evalT_constFold (v : ℚ) : PNode.evalT [] (constFold v) = some v := by
  rw [constFold, PNode.evalT]
  rfl

theorem wft_constFold (v : ℚ) : WFT (constFold v) :=
  WFT.mk _ [] rfl (by intro c hc; cases hc)

theorem isParamN_constFold (v : ℚ) : (constFold v).isParamN = false := by
  rw [constFold, PNode.isParamN_mk]
  rfl

theorem sysAtoms_constFold (v : ℚ) : SysAtoms (constFold v) :=
  SysAtoms.mk _ [] trivial (by intro c hc; cases hc)

/-- `GeneticOperatorSet.editing` on the (cloned) individual `t`: draw a
non-terminal, non-parameterized node (`random_node(non_terminal=True,
non_parameterized=True)`); if none exists return the clone unchanged, else
replace the subtree rooted there by a single constant holding its
evaluation. -/
def editingStep (t : PNode) (draw : Nat) : PNode :=
  match PNode.linPaths true true t false with
  | [] => t
  | q :: rest =>
      match t.subtreeAt ((q :: rest).getD (draw % (q :: rest).length) []) with
      | some node =>
          match PNode.evalT [] node with
          | some v =>
            t.replaceAt ((q :: rest).getD (draw % (q :: rest).length) [])
              (constFold v)
          | none => t
      | none => t

/-- The `ControlModel._simplify` loop: repeated Editing. -/
def editIter (t : PNode) : List Nat → PNode
  | [] => t
  | d :: ds => editIter (editingStep t d) ds

theorem elem_le_sum : ∀ {l : List Nat} {x : Nat}, x ∈ l → x ≤ l.sum := by
  intro l
  induction l with
  | nil => intro x h; cases h
  | cons y ys ih =>
      intro x h
      rcases List.mem_cons.mp h with rfl | h1
      · simp
      · have := ih h1
        simp only [List.sum_cons]
        omega

theorem PNode.subtreeAt_size_le : ∀ {p : List Nat} {t s : PNode},
    t.subtreeAt p = some s → s.sizeT ≤ t.sizeT := by
  intro p
  induction p with
  | nil =>
      intro t s h
      rw [PNode.subtreeAt] at h
      cases h
      exact le_refl _
  | cons i p ih =>
      intro t s h
      rw [PNode.subtreeAt] at h
      rcases h1 : t.children.get? i with _ | c <;> rw [h1] at h
      · cases h
      · have h2 := ih h
        cases t with
        | mk a cs =>
            simp only [PNode.children] at h1
            have := elem_le_sum
              (List.mem_map_of_mem PNode.sizeT (List.get?_mem h1))
            rw [PNode.sizeT_mk]
            omega

theorem sizeT_children_ne_nil {a : Atom} {cs : List PNode}
    (h : 1 < (PNode.mk a cs).sizeT) : cs ≠ [] := by
  intro hnil
  subst hnil
  rw [PNode.sizeT_mk] at h
  simp at h

theorem two_le_sizeT_of_nonterminal {s : PNode} (hwf : WFT s)
    (h : s.atom.arity ≠ 0) : 2 ≤ s.sizeT := by
  cases s with
  | mk a cs =>
      have hlen : cs.length = a.arity := by
        simpa [PNode.children, PNode.atom] using hwf.length_eq
      simp only [PNode.atom] at h
      have hne : cs ≠ [] := by
        intro hnil
        subst hnil
        simp at hlen
        omega
      rcases List.exists_mem_of_ne_nil cs hne with ⟨c, hc⟩
      have h1 := PNode.one_le_sizeT c
      have h2 := elem_le_sum (List.mem_map_of_mem PNode.sizeT hc)
      rw [PNode.sizeT_mk]
      omega

theorem editCandidates_root_mem {t : PNode} (hwf : WFT t)
    (hvf : t.isParamN = false) (hsize : 1 < t.sizeT) :
    [] ∈ PNode.linPaths true true t false := by
  cases t with
  | mk a cs =>
      have hne : cs ≠ [] := sizeT_children_ne_nil hsize
      have hlen : cs.length = a.arity := by
        simpa [PNode.children, PNode.atom] using hwf.length_eq
      have ha : a.arity ≠ 0 := by
        have := List.length_pos.mpr hne
        omega
      rw [PNode.linPaths]
      rw [if_neg (by simp [ha, hvf])]
      exact List.mem_cons_self _ _

/-- Strengthening of `linPaths_subtree`: a filtered-enumeration path
addresses a subtree that passed the filters. -/
theorem linPaths_subtree_filters {nt np : Bool} :
    ∀ (t : PNode) (ef : Bool) {p : List Nat},
      p ∈ PNode.linPaths nt np t ef →
      ∃ s, t.subtreeAt p = some s ∧
        (nt = true → s.atom.arity ≠ 0) ∧
        (np = true → s.isParamN = false) := by
  intro t
  induction t using PNode.inductionOn with
  | _ a cs ih =>
      intro ef p h
      rw [PNode.linPaths] at h
      rcases List.mem_append.mp h with h1 | h1
      · by_cases hb : (ef || (decide (a.arity = 0) && nt) ||
            ((PNode.mk a cs).isParamN && np)) = true
        · rw [if_pos hb] at h1
          cases h1
        · rw [if_neg hb] at h1
          have hp : p = [] := by simpa using h1
          subst hp
          rcases Bool.or_eq_false_iff.mp (Bool.eq_false_iff.mpr hb) with ⟨hb1, hb2⟩
          rcases Bool.or_eq_false_iff.mp hb1 with ⟨-, hb3⟩
          refine ⟨.mk a cs, rfl, ?_, ?_⟩
          · intro hnt
            rw [hnt, Bool.and_true] at hb3
            simpa [PNode.atom] using of_decide_eq_false hb3
          · intro hnp
            rw [hnp, Bool.and_true] at hb2
            exact hb2
      · rcases PNode.linAux_mem h1 with ⟨j, p', rfl, c, hc, hmem⟩
        rcases ih c (List.get?_mem hc) false hmem with ⟨s, hs, hf1, hf2⟩
        refine ⟨s, ?_, hf1, hf2⟩
        rw [PNode.subtreeAt]
        simp only [PNode.children]
        rw [Nat.zero_add, hc]
        exact hs

theorem sizeT_constFold (v : ℚ) : (constFold v).sizeT = 1 := by
  rw [constFold, PNode.sizeT_mk]
  rfl

theorem editingStep_spec (t : PNode) (hwf : WFT t) (hsys : SysAtoms t)
    (hvf : t.isParamN = false) (draw : Nat) :
    PNode.evalT [] (editingStep t draw) = PNode.evalT [] t ∧
    WFT (editingStep t draw) ∧ SysAtoms (editingStep t draw) ∧
    (editingStep t draw).isParamN = false ∧
    (1 < t.sizeT → (editingStep t draw).sizeT < t.sizeT) ∧
    (t.sizeT = 1 → editingStep t draw = t) := by
  rcases hopts : PNode.linPaths true true t false with _ | ⟨q, rest⟩
  · have hstep : editingStep t draw = t := by
      rw [editingStep, hopts]
    rw [hstep]
    refine ⟨rfl, hwf, hsys, hvf, ?_, fun _ => rfl⟩
    intro hsz
    have := editCandidates_root_mem hwf hvf hsz
    rw [hopts] at this
    cases this
  · have hpmem : (q :: rest).getD (draw % (q :: rest).length) [] ∈ q :: rest := by
      have := getD_mod_mem (q :: rest) draw (by simp)
      simpa using this
    have hpmem' : (q :: rest).getD (draw % (q :: rest).length) [] ∈
        PNode.linPaths true true t false := by
      rw [hopts]
      exact hpmem
    rcases linPaths_subtree_filters t false hpmem' with ⟨s, hs, hnt, hnp⟩
    have hswf : WFT s := PNode.subtreeAt_wf hwf hs
    have hsvf : s.isParamN = false := hnp rfl
    rcases evalT_some_of_varfree s hswf hsvf with ⟨v, hv⟩
    have hstep : editingStep t draw =
        t.replaceAt ((q :: rest).getD (draw % (q :: rest).length) [])
          (constFold v) := by
      rw [editingStep]
      simp only [hopts, hs, hv]
    have hssize : 2 ≤ s.sizeT := two_le_sizeT_of_nonterminal hswf (hnt rfl)
    have hsize := PNode.sizeT_replaceAt (constFold v) hs
    rw [sizeT_constFold] at hsize
    have hsle := PNode.subtreeAt_size_le hs
    rw [hstep]
    refine ⟨evalT_replaceAt (constFold v) hs (by rw [evalT_constFold, hv]),
      PNode.replaceAt_wf (constFold v) hwf hs (wft_constFold v),
      sysAtoms_replaceAt (constFold v) hs hsys (sysAtoms_constFold v),
      isParamN_replaceAt_false (constFold v) hs hvf (isParamN_constFold v),
      fun _ => by omega, fun h1 => by omega⟩

theorem editIter_folds : ∀ (draws : List Nat) (t : PNode), WFT t →
    SysAtoms t → t.isParamN = false → t.sizeT - 1 ≤ draws.length →
    ∃ v nm, editIter t draws = .mk (.Const v nm) [] ∧
      PNode.evalT [] t = some v := by
  have single : ∀ (t : PNode), WFT t → SysAtoms t → t.isParamN = false →
      t.sizeT = 1 → ∃ v nm, t = .mk (.Const v nm) [] ∧
        PNode.evalT [] t = some v := by
    intro t hwf hsys hvf hsize
    cases t with
    | mk a cs =>
        have hcs : cs = [] := by
          cases cs with
          | nil => rfl
          | cons c crest =>
              rw [PNode.sizeT_mk] at hsize
              have := PNode.one_le_sizeT c
              simp only [List.map_cons, List.sum_cons] at hsize
              omega
        subst hcs
        have hlen : (0 : Nat) = a.arity := by
          simpa [PNode.children, PNode.atom] using hwf.length_eq
        have hatom := hsys.atom
        cases a with
        | Const v nm =>
            refine ⟨v, nm, rfl, ?_⟩
            rw [PNode.evalT]
            rfl
        | Var nm val =>
            rw [PNode.isParamN_mk] at hvf
            simp [Atom.isParameterized] at hvf
        | CRange lo hi => cases hatom
        | Op nm ar f =>
            simp only [PNode.atom, Atom.sysAtom] at hatom
            simp only [Atom.arity] at hlen
            omega
  intro draws
  induction draws with
  | nil =>
      intro t hwf hsys hvf hlen
      have h1 := PNode.one_le_sizeT t
      have hsz : t.sizeT = 1 := by
        simp only [List.length_nil] at hlen
        omega
      rcases single t hwf hsys hvf hsz with ⟨v, nm, ht, hv⟩
      exact ⟨v, nm, ht, hv⟩
  | cons d ds ih =>
      intro t hwf hsys hvf hlen
      rcases editingStep_spec t hwf hsys hvf d with
        ⟨heval, hwf', hsys', hvf', hdec, hfix⟩
      by_cases h1 : 1 < t.sizeT
      · have hlt := hdec h1
        have hlen' : (editingStep t d).sizeT - 1 ≤ ds.length := by
          simp only [List.length_cons] at hlen
          omega
        rcases ih (editingStep t d) hwf' hsys' hvf' hlen' with ⟨v, nm, hit, hv⟩
        refine ⟨v, nm, ?_, ?_⟩
        · rw [editIter]
          exact hit
        · rw [← heval]
          exact hv
      · have hsz : t.sizeT = 1 := by
          have := PNode.one_le_sizeT t
          omega
        have hstep := hfix hsz
        have hlen' : t.sizeT - 1 ≤ ds.length := by omega
        rcases ih t hwf hsys hvf hlen' with ⟨v, nm, hit, hv⟩
        refine ⟨v, nm, ?_, hv⟩
        rw [editIter, hstep]
        exact hit

/-- C8: on a well-formed, fully variable-free tree (built from materialized
system atoms), one Editing application preserves the tree's concrete
evaluation and, while more than one node remains, strictly decreases the
node count (so iteration terminates); a single-terminal tree is a fixpoint;
and any sufficiently long iteration of Editing ends in a single `Constant`
node holding exactly the original tree's concrete evaluation. -/
theorem editing_folds_variable_free (t : PNode) (hwf : WFT t)
    (hsys : SysAtoms t) (hvf : t.isParamN = false) :
    (∀ draw : Nat,
      PNode.evalT [] (editingStep t draw) = PNode.evalT [] t ∧
      (1 < t.sizeT → (editingStep t draw).sizeT < t.sizeT) ∧
      (t.sizeT = 1 → editingStep t draw = t)) ∧
    (∀ draws : List Nat, t.sizeT - 1 ≤ draws.length →
      ∃ v nm, editIter t draws = .mk (.Const v nm) [] ∧
        PNode.evalT [] t = some v) := by
  constructor
  · intro draw
    rcases editingStep_spec t hwf hsys hvf draw with
      ⟨heval, _, _, _, hdec, hfix⟩
    exact ⟨heval, hdec, hfix⟩
  · intro draws hlen
    exact editIter_folds draws t hwf hsys hvf hlen

def tE : PNode := .mk exAdd [constFold 2, constFold 3]

theorem tE_wf : WFT tE :=
  WFT.mk exAdd [constFold 2, constFold 3] rfl (by
    intro c hc
    simp only [List.mem_cons, List.not_mem_nil, or_false] at hc
    rcases hc with rfl | rfl <;> exact wft_constFold _)

theorem tE_sys : SysAtoms tE :=
  SysAtoms.mk exAdd [constFold 2, constFold 3]
    (by rw [show Atom.sysAtom exAdd = (1 ≤ 2) from rfl]; omega) (by
    intro c hc
    simp only [List.mem_cons, List.not_mem_nil, or_false] at hc
    rcases hc with rfl | rfl <;> exact sysAtoms_constFold _)

theorem tE_vf : tE.isParamN = false := by
  rw [tE, PNode.isParamN_mk]
  rw [List.map_cons, List.map_cons, List.map_nil,
    isParamN_constFold, isParamN_constFold]
  rfl

theorem editing_folds_variable_free_witness :
    WFT tE ∧ SysAtoms tE ∧ tE.isParamN = false ∧
    ((∀ draw : Nat,
      PNode.evalT [] (editingStep tE draw) = PNode.evalT [] tE ∧
      (1 < tE.sizeT → (editingStep tE draw).sizeT < tE.sizeT) ∧
      (tE.sizeT = 1 → editingStep tE draw = tE)) ∧
    (∀ draws : List Nat, tE.sizeT - 1 ≤ draws.length →
      ∃ v nm, editIter tE draws = .mk (.Const v nm) [] ∧
        PNode.evalT [] tE = some v)) :=
  ⟨tE_wf, tE_sys, tE_vf, editing_folds_variable_free tE tE_wf tE_sys tE_vf⟩

/-! ## C10: `random_node_pair` and `_swap_nodes` -/

/-- `p` is a strict prefix of `q`: the node at `q` is a strict descendant
of the node at `p` (the path form of `Node.__lt__`). -/
def properPrefixB : List Nat → List Nat → Bool
  | [], [] => false
  | [], _ :: _ => true
  | _ :: _, [] => false
  | i :: p, j :: q => decide (i = j) && properPrefixB p q

/-- `n1 | n2` (`Node.__or__`): mutual independence — neither node strictly
descends from the other; in particular a node is independent of itself. -/
def indepPaths (p q : List Nat) : Bool :=
  !properPrefixB p q && !properPrefixB q p

/-- `random_node(exclude_root=True)` candidates. -/
def nonRootOptions (t : PNode) : List (List Nat) :=
  PNode.linPaths false false t true

/-- `ParseTree._random_node_pair`: draw a non-root node (when one exists),
then up to 10 attempts at a second non-root node independent of the first;
on exhaustion (or a single-node tree) fall back to the (root, root) pair. -/
def randomNodePair (t : PNode) (d1 : Nat) (ds : List Nat) :
    List Nat × List Nat :=
  match nonRootOptions t with
  | [] => ([], [])
  | q :: rest =>
      match (ds.take 10).find? (fun d =>
          indepPaths ((q :: rest).getD (d1 % (q :: rest).length) [])
            ((q :: rest).getD (d % (q :: rest).length) [])) with
      | some d => ((q :: rest).getD (d1 % (q :: rest).length) [],
                   (q :: rest).getD (d % (q :: rest).length) [])
      | none => ([], [])

/-- `ParseTree._swap_nodes`: identical nodes are a no-op; otherwise both
lineages are computed on the unmodified tree and each node is written into
the other's parent slot (`p.set_child(new, i)`, i.e. replacement at the
other's full path); a `None` parent (a root operand) would crash
(`none`). -/
def swapNodesP (t : PNode) (p1 p2 : List Nat) : Option PNode :=
  if p1 = p2 then some t
  else if p1 = [] ∨ p2 = [] then none
  else
    match t.subtreeAt p1, t.subtreeAt p2 with
    | some s1, some s2 => some ((t.replaceAt p1 s2).replaceAt p2 s1)
    | _, _ => none

/-- `ParseTree.swap_random_node_pair`. -/
def swapRandomNodePair (t : PNode) (d1 : Nat) (ds : List Nat) :
    Option PNode :=
  swapNodesP t (randomNodePair t d1 ds).1 (randomNodePair t d1 ds).2

theorem linPaths_ef_ne_nil {nt np : Bool} {t : PNode} {p : List Nat}
    (h : p ∈ PNode.linPaths nt np t true) : p ≠ [] := by
  cases t with
  | mk a cs =>
      rw [PNode.linPaths] at h
      rcases List.mem_append.mp h with h1 | h1
      · rw [if_pos (by simp)] at h1
        cases h1
      · rcases PNode.linAux_mem h1 with ⟨j, p', rfl, -⟩
        simp

theorem properPrefixB_nil_left {q : List Nat} (h : q ≠ []) :
    properPrefixB [] q = true := by
  cases q with
  | nil => exact absurd rfl h
  | cons j q' => rfl

theorem subtreeAt_replaceAt_indep :
    ∀ {p1 p2 : List Nat} {t : PNode} (r : PNode),
      properPrefixB p1 p2 = false → properPrefixB p2 p1 = false →
      p1 ≠ p2 → (t.replaceAt p1 r).subtreeAt p2 = t.subtreeAt p2 := by
  intro p1
  induction p1 with
  | nil =>
      intro p2 t r h12 h21 hne
      cases p2 with
      | nil => exact absurd rfl hne
      | cons j q => rw [properPrefixB_nil_left (by simp)] at h12; cases h12
  | cons i p1' ih =>
      intro p2 t r h12 h21 hne
      cases p2 with
      | nil => rw [properPrefixB_nil_left (by simp)] at h21; cases h21
      | cons j p2' =>
          cases t with
          | mk a cs =>
              rw [PNode.replaceAt]
              rcases hget : cs.get? i with _ | c
              · rfl
              · by_cases hij : i = j
                · subst hij
                  rw [properPrefixB, decide_eq_true rfl, Bool.true_and] at h12 h21
                  have hne' : p1' ≠ p2' := fun hcontra => hne (by rw [hcontra])
                  rw [PNode.subtreeAt, PNode.subtreeAt]
                  simp only [PNode.children]
                  rw [List.get?_set_eq_of_lt _ (List.get?_eq_some.mp hget).1,
                    hget]
                  exact ih r h12 h21 hne'
                · rw [PNode.subtreeAt, PNode.subtreeAt]
                  simp only [PNode.children]
                  rw [List.get?_set_ne _ _ hij]

theorem swapNodesP_wf {t : PNode} {p1 p2 : List Nat} {s1 s2 : PNode}
    (hwf : WFT t) (h1 : t.subtreeAt p1 = some s1)
    (h2 : t.subtreeAt p2 = some s2) (hind : indepPaths p1 p2 = true)
    (hne : p1 ≠ p2) (hn1 : p1 ≠ []) (hn2 : p2 ≠ []) :
    ∃ t', swapNodesP t p1 p2 = some t' ∧ WFT t' := by
  have h12 : properPrefixB p1 p2 = false := by
    cases h : properPrefixB p1 p2
    · rfl
    · rw [indepPaths, h] at hind
      simp at hind
  have h21 : properPrefixB p2 p1 = false := by
    cases h : properPrefixB p2 p1
    · rfl
    · rw [indepPaths, h] at hind
      simp at hind
  have hs1 : WFT s1 := PNode.subtreeAt_wf hwf h1
  have hs2 : WFT s2 := PNode.subtreeAt_wf hwf h2
  have hw1 : WFT (t.replaceAt p1 s2) := PNode.replaceAt_wf s2 hwf h1 hs2
  have hsub2 : (t.replaceAt p1 s2).subtreeAt p2 = some s2 := by
    rw [subtreeAt_replaceAt_indep s2 h12 h21 hne]
    exact h2
  refine ⟨(t.replaceAt p1 s2).replaceAt p2 s1, ?_,
    PNode.replaceAt_wf s1 hw1 hsub2 hs1⟩
  rw [swapNodesP.eq_def, if_neg hne,
    if_neg (by rw [not_or]; exact ⟨hn1, hn2⟩), h1, h2]

/-- C10 amended: `swap_random_node_pair` either draws the (root, root)
fallback pair and leaves the tree unchanged, or draws two non-root,
mutually independent (but possibly *identical*) nodes; a pair of identical
nodes is a no-op, and a genuine pair is swapped through the two parent
slots.  In every case no parent dereference happens on an absent parent
(the call never crashes) and the arity invariant is preserved. -/
theorem swap_random_node_pair_safe (t : PNode) (hwf : WFT t) (d1 : Nat)
    (ds : List Nat) :
    (randomNodePair t d1 ds = ([], []) ∧
      swapRandomNodePair t d1 ds = some t) ∨
    ((randomNodePair t d1 ds).1 ≠ [] ∧ (randomNodePair t d1 ds).2 ≠ [] ∧
      indepPaths (randomNodePair t d1 ds).1 (randomNodePair t d1 ds).2 =
        true ∧
      ∃ t', swapRandomNodePair t d1 ds = some t' ∧ WFT t' ∧
        ((randomNodePair t d1 ds).1 = (randomNodePair t d1 ds).2 →
          t' = t)) := by
  rcases hopts : nonRootOptions t with _ | ⟨q, rest⟩
  · left
    have hpair : randomNodePair t d1 ds = ([], []) := by
      rw [randomNodePair, hopts]
    refine ⟨hpair, ?_⟩
    rw [swapRandomNodePair, hpair, swapNodesP.eq_def, if_pos rfl]
  · rcases hfind : (ds.take 10).find? (fun d =>
        indepPaths ((q :: rest).getD (d1 % (q :: rest).length) [])
          ((q :: rest).getD (d % (q :: rest).length) [])) with _ | d
    · left
      have hpair : randomNodePair t d1 ds = ([], []) := by
        rw [randomNodePair, hopts]
        simp only [hfind]
      refine ⟨hpair, ?_⟩
      rw [swapRandomNodePair, hpair, swapNodesP.eq_def, if_pos rfl]
    · right
      have hpair : randomNodePair t d1 ds =
          ((q :: rest).getD (d1 % (q :: rest).length) [],
           (q :: rest).getD (d % (q :: rest).length) []) := by
        rw [randomNodePair, hopts]
        simp only [hfind]
      have hopts' : PNode.linPaths false false t true = q :: rest := hopts
      have hmem1 : (q :: rest).getD (d1 % (q :: rest).length) [] ∈
          PNode.linPaths false false t true := by
        rw [hopts']
        simpa using getD_mod_mem (q :: rest) d1 (by simp)
      have hmem2 : (q :: rest).getD (d % (q :: rest).length) [] ∈
          PNode.linPaths false false t true := by
        rw [hopts']
        simpa using getD_mod_mem (q :: rest) d (by simp)
      have hind : indepPaths ((q :: rest).getD (d1 % (q :: rest).length) [])
          ((q :: rest).getD (d % (q :: rest).length) []) = true := by
        simpa using List.find?_some hfind
      rw [hpair]
      refine ⟨linPaths_ef_ne_nil hmem1, linPaths_ef_ne_nil hmem2, hind, ?_⟩
      by_cases heq : (q :: rest).getD (d1 % (q :: rest).length) [] =
          (q :: rest).getD (d % (q :: rest).length) []
      · refine ⟨t, ?_, hwf, fun _ => rfl⟩
        rw [swapRandomNodePair, hpair]
        exact (by rw [swapNodesP.eq_def, if_pos heq] :
          swapNodesP _ ((q :: rest).getD (d1 % (q :: rest).length) []) _ = some t)
      · rcases PNode.linPaths_subtree t true hmem1 with ⟨s1, hs1⟩
        rcases PNode.linPaths_subtree t true hmem2 with ⟨s2, hs2⟩
        rcases swapNodesP_wf hwf hs1 hs2 hind heq (linPaths_ef_ne_nil hmem1)
          (linPaths_ef_ne_nil hmem2) with ⟨t', ht', hwt'⟩
        refine ⟨t', ?_, hwt', fun hcontra => absurd hcontra heq⟩
        rw [swapRandomNodePair, hpair]
        simpa using ht'

theorem exTree2_nonRootOptions : nonRootOptions exTree2 = [[0], [1]] := by
  rw [nonRootOptions, exTree2]
  simp [PNode.linPaths, PNode.linAux]

/-- C10 counterexample: on the depth-2 tree `exTree2` with draws picking
index 0 twice, the pair-drawing loop returns the *same* non-root node for
both components (`n1 | n1` holds, since a node is not its own strict
descendant), so the result is neither a pair of distinct nodes nor the
(root, root) fallback; the swap is then a no-op.  The claim's two-case
dichotomy fails. -/
theorem random_node_pair_repeats_counterexample :
    randomNodePair exTree2 0 [0] = ([0], [0]) ∧
    (([0] : List Nat) ≠ []) ∧
    swapRandomNodePair exTree2 0 [0] = some exTree2 := by
  have hpair : randomNodePair exTree2 0 [0] = ([0], [0]) := by
    rw [randomNodePair, exTree2_nonRootOptions]
    rfl
  refine ⟨hpair, by simp, ?_⟩
  rw [swapRandomNodePair, hpair, swapNodesP.eq_def, if_pos rfl]

theorem swap_random_node_pair_safe_witness :
    WFT exTree2 ∧
    ((randomNodePair exTree2 0 [0] = ([], []) ∧
      swapRandomNodePair exTree2 0 [0] = some exTree2) ∨
    ((randomNodePair exTree2 0 [0]).1 ≠ [] ∧
      (randomNodePair exTree2 0 [0]).2 ≠ [] ∧
      indepPaths (randomNodePair exTree2 0 [0]).1
        (randomNodePair exTree2 0 [0]).2 = true ∧
      ∃ t', swapRandomNodePair exTree2 0 [0] = some t' ∧ WFT t' ∧
        ((randomNodePair exTree2 0 [0]).1 = (randomNodePair exTree2 0 [0]).2 →
          t' = exTree2))) :=
  ⟨exTree2_randomGen.2.2.wft,
   swap_random_node_pair_safe exTree2 exTree2_randomGen.2.2.wft 0 [0]⟩

/-! ## C9: heap embedding of the mutable node graph

Python nodes are mutable objects with reference identity.  To state that
the genetic operators never mutate the trees of the input population, nodes
are embedded as records in an explicit heap addressed by allocation ids
(`Node.__init__` = allocation, `set_child`/`_children` update = a write at
the node's id).  A fuel parameter bounds the recursion depth of heap
walks; it only limits how deep a walk can go, never which ids get written,
so the frame results below hold for every fuel. -/

structure NodeRec where
  atom : Atom
  children : List Nat

structure Heap where
  recs : List (Nat × NodeRec)
  ctr : Nat

/-- Dereference an id (later writes shadow earlier ones). -/
def hGet (h : Heap) (i : Nat) : Option NodeRec :=
  h.recs.lookup i

/-- `Node.__init__`: allocate a fresh node. -/
def allocNode (h : Heap) (a : Atom) (cs : List Nat) : Heap × Nat :=
  (⟨(h.ctr, ⟨a, cs⟩) :: h.recs, h.ctr + 1⟩, h.ctr)

/-- In-place update of the node object at id `i`. -/
def writeNode (h : Heap) (i : Nat) (r : NodeRec) : Heap :=
  ⟨(i, r) :: h.recs, h.ctr⟩

theorem hGet_alloc_lt {h : Heap} {a : Atom} {cs : List Nat} {i : Nat}
    (hi : i < h.ctr) : hGet (allocNode h a cs).1 i = hGet h i := by
  rw [allocNode, hGet, hGet, List.lookup]
  have hb : (i == h.ctr) = false := by simp; omega
  rw [hb]

theorem hGet_alloc_self {h : Heap} {a : Atom} {cs : List Nat} :
    hGet (allocNode h a cs).1 h.ctr = some ⟨a, cs⟩ := by
  rw [allocNode, hGet, List.lookup]
  have hb : (h.ctr == h.ctr) = true := by simp
  rw [hb]

theorem hGet_write_ne {h : Heap} {j : Nat} {r : NodeRec} {i : Nat}
    (hij : i ≠ j) : hGet (writeNode h j r) i = hGet h i := by
  rw [writeNode, hGet, hGet, List.lookup]
  have hb : (i == j) = false := by simp [hij]
  rw [hb]

theorem hGet_write_self {h : Heap} {j : Nat} {r : NodeRec} :
    hGet (writeNode h j r) j = some r := by
  rw [writeNode, hGet, List.lookup]
  have hb : (j == j) = true := by simp
  rw [hb]

theorem ctr_alloc {h : Heap} {a : Atom} {cs : List Nat} :
    (allocNode h a cs).1.ctr = h.ctr + 1 := rfl

theorem ctr_write {h : Heap} {j : Nat} {r : NodeRec} :
    (writeNode h j r).ctr = h.ctr := rfl

/-- Invariant threaded through an operator body relative to the heap `h₀`
and cutoff `c` (the allocation counter at operator entry): the counter only
grows, ids below the cutoff keep their records bit for bit, and every
record in the working region only points into the working region. -/
structure HInv (c : Nat) (h₀ h : Heap) : Prop where
  mono : c ≤ h.ctr
  frame : ∀ i, i < c → hGet h i = hGet h₀ i
  closed : ∀ j r, c ≤ j → hGet h j = some r → ∀ ch ∈ r.children, c ≤ ch

theorem HInv.alloc {c : Nat} {h₀ h : Heap} (inv : HInv c h₀ h) {a : Atom}
    {cs : List Nat} (hcs : ∀ ch ∈ cs, c ≤ ch) :
    HInv c h₀ (allocNode h a cs).1 ∧ c ≤ (allocNode h a cs).2 := by
  have hm := inv.mono
  refine ⟨⟨?_, ?_, ?_⟩, inv.mono⟩
  · rw [ctr_alloc]; omega
  · intro i hi
    rw [hGet_alloc_lt (by omega)]
    exact inv.frame i hi
  · intro j r hj hr ch hch
    by_cases hjc : j = h.ctr
    · subst hjc
      rw [hGet_alloc_self] at hr
      cases hr
      exact hcs ch hch
    · have hjlt : j < h.ctr ∨ h.ctr < j := by
        rcases Nat.lt_trichotomy j h.ctr with h1 | h1 | h1
        · exact Or.inl h1
        · exact absurd h1 hjc
        · exact Or.inr h1
      rcases hjlt with h1 | h1
      · rw [hGet_alloc_lt h1] at hr
        exact inv.closed j r hj hr ch hch
      · -- above the bump: only the id `h.ctr` was added
        rw [allocNode, hGet, List.lookup] at hr
        have hb : (j == h.ctr) = false := by simp; omega
        rw [hb] at hr
        exact inv.closed j r hj hr ch hch

theorem HInv.write {c : Nat} {h₀ h : Heap} (inv : HInv c h₀ h) {j : Nat}
    {r : NodeRec} (hj : c ≤ j) (hcs : ∀ ch ∈ r.children, c ≤ ch) :
    HInv c h₀ (writeNode h j r) := by
  refine ⟨by rw [ctr_write]; exact inv.mono, ?_, ?_⟩
  · intro i hi
    rw [hGet_write_ne (by omega)]
    exact inv.frame i hi
  · intro j' r' hj' hr' ch hch
    by_cases hjj : j' = j
    · subst hjj
      rw [hGet_write_self] at hr'
      cases hr'
      exact hcs ch hch
    · rw [hGet_write_ne hjj] at hr'
      exact inv.closed j' r' hj' hr' ch hch

theorem HInv.init {c : Nat} {h : Heap} (hc : c ≤ h.ctr)
    (hw : ∀ j, c ≤ j → ∀ r, hGet h j = some r → ∀ ch ∈ r.children, c ≤ ch) :
    HInv c h h :=
  ⟨hc, fun _ _ => rfl, fun j r hj hr => hw j hj r hr⟩

theorem HInv.trans_heap {c : Nat} {h₀ h1 h2 : Heap} (i1 : HInv c h₀ h1)
    (i2 : HInv c h1 h2) : HInv c h₀ h2 :=
  ⟨i2.mono, fun i hi => (i2.frame i hi).trans (i1.frame i hi), i2.closed⟩

mutual

/-- `Node.copy()` over the heap: deep-clone the node at `i` into freshly
allocated records (children first, then the node, as the constructor-and-
`add_child` sequence of the source allocates).  Fuel bounds the recursion
depth; an exhausted walk or a dangling id degenerates to allocating a
placeholder leaf, still touching no existing record. -/
def copyN (fuel : Nat) (h : Heap) (i : Nat) : Heap × Nat :=
  match fuel with
  | 0 => allocNode h (.Const 0 "0.00") []
  | fuel' + 1 =>
      match hGet h i with
      | none => allocNode h (.Const 0 "0.00") []
      | some r =>
          let p := copyList fuel' h r.children
          allocNode p.1 r.atom p.2
termination_by (fuel, 0)

/-- Copy a child list left to right, threading the heap. -/
def copyList (fuel : Nat) (h : Heap) (l : List Nat) : Heap × List Nat :=
  match l with
  | [] => (h, [])
  | i :: rest =>
      let p1 := copyN fuel h i
      let p2 := copyList fuel p1.1 rest
      (p2.1, p1.2 :: p2.2)
termination_by (fuel, l.length + 1)

end

theorem copy_inv : ∀ (fuel : Nat),
    (∀ {c : Nat} {h₀ : Heap} (h : Heap) (i : Nat), HInv c h₀ h →
      HInv c h₀ (copyN fuel h i).1 ∧ c ≤ (copyN fuel h i).2) ∧
    (∀ {c : Nat} {h₀ : Heap} (h : Heap) (l : List Nat), HInv c h₀ h →
      HInv c h₀ (copyList fuel h l).1 ∧
        ∀ x ∈ (copyList fuel h l).2, c ≤ x) := by
  have listStep : ∀ (fuel : Nat),
      (∀ {c : Nat} {h₀ : Heap} (h : Heap) (i : Nat), HInv c h₀ h →
        HInv c h₀ (copyN fuel h i).1 ∧ c ≤ (copyN fuel h i).2) →
      ∀ {c : Nat} {h₀ : Heap} (l : List Nat) (h : Heap), HInv c h₀ h →
        HInv c h₀ (copyList fuel h l).1 ∧
          ∀ x ∈ (copyList fuel h l).2, c ≤ x := by
    intro fuel hN c h₀ l
    induction l with
    | nil =>
        intro h inv
        rw [copyList]
        exact ⟨inv, by intro x hx; cases hx⟩
    | cons i rest ih =>
        intro h inv
        rcases hN h i inv with ⟨inv1, hge1⟩
        rcases ih (copyN fuel h i).1 inv1 with ⟨inv2, hge2⟩
        rw [copyList]
        refine ⟨inv2, ?_⟩
        intro x hx
        simp only [List.mem_cons] at hx
        rcases hx with rfl | hx
        · exact hge1
        · exact hge2 x hx
  intro fuel
  induction fuel with
  | zero =>
      constructor
      · intro c h₀ h i inv
        rw [copyN]
        exact (inv.alloc (fun ch hch => absurd hch (List.not_mem_nil ch)))
      · intro c h₀ h l inv
        refine listStep 0 ?_ l h inv
        intro c' h₀' h' i' inv'
        rw [copyN]
        exact (inv'.alloc (fun ch hch => absurd hch (List.not_mem_nil ch)))
  | succ fuel' ih =>
      have hN : ∀ {c : Nat} {h₀ : Heap} (h : Heap) (i : Nat), HInv c h₀ h →
          HInv c h₀ (copyN (fuel' + 1) h i).1 ∧
            c ≤ (copyN (fuel' + 1) h i).2 := by
        intro c h₀ h i inv
        rw [copyN]
        rcases hr : hGet h i with _ | r
        · exact (inv.alloc (fun ch hch => absurd hch (List.not_mem_nil ch)))
        · rcases listStep fuel' (fun h'' i'' inv'' => ih.1 h'' i'' inv'')
            r.children h inv with ⟨inv1, hge1⟩
        -- the copied children ids are all in the working region
          exact (inv1.alloc hge1)
      exact ⟨fun h i inv => hN h i inv, fun h l inv => listStep _ hN l h inv⟩

mutual

/-- `Node.is_parameterized` over the heap. -/
def isParamH (fuel : Nat) (h : Heap) (i : Nat) : Bool :=
  match fuel with
  | 0 => false
  | fuel' + 1 =>
      match hGet h i with
      | none => false
      | some r => r.atom.isParameterized || isParamList fuel' h r.children
termination_by (fuel, 0)

def isParamList (fuel : Nat) (h : Heap) (l : List Nat) : Bool :=
  match l with
  | [] => false
  | c :: rest => isParamH fuel h c || isParamList fuel h rest
termination_by (fuel, l.length + 1)

end

mutual

/-- `Node._linearize` over the heap: pre-order ids passing the filters. -/
def linearizeH (fuel : Nat) (h : Heap) (i : Nat) (ef nt np : Bool) :
    List Nat :=
  match fuel with
  | 0 => []
  | fuel' + 1 =>
      match hGet h i with
      | none => []
      | some r =>
          (if ef || (decide (r.atom.arity = 0) && nt) ||
              (isParamH (fuel' + 1) h i && np) then ([] : List Nat)
           else [i]) ++ linearizeList fuel' h r.children nt np
termination_by (fuel, 0)

def linearizeList (fuel : Nat) (h : Heap) (l : List Nat) (nt np : Bool) :
    List Nat :=
  match l with
  | [] => []
  | c :: rest =>
      linearizeH fuel h c false nt np ++ linearizeList fuel h rest nt np
termination_by (fuel, l.length + 1)

end

/-- Ids enumerated from a working-region root stay in the working
region. -/
theorem linearize_ge : ∀ (fuel : Nat) {c : Nat} {h : Heap},
    (∀ j r, c ≤ j → hGet h j = some r → ∀ ch ∈ r.children, c ≤ ch) →
    (∀ (i : Nat) (ef nt np : Bool), c ≤ i →
      ∀ x ∈ linearizeH fuel h i ef nt np, c ≤ x) ∧
    (∀ (l : List Nat) (nt np : Bool), (∀ y ∈ l, c ≤ y) →
      ∀ x ∈ linearizeList fuel h l nt np, c ≤ x) := by
  intro fuel
  induction fuel with
  | zero =>
      intro c h hcl
      constructor
      · intro i ef nt np hi x hx
        rw [linearizeH] at hx
        cases hx
      · intro l nt np hl x hx
        induction l with
        | nil => rw [linearizeList] at hx; cases hx
        | cons y ys ih =>
            rw [linearizeList] at hx
            rcases List.mem_append.mp hx with h1 | h1
            · rw [linearizeH] at h1; cases h1
            · exact ih (fun z hz => hl z (List.mem_cons_of_mem y hz)) h1
  | succ fuel' ih =>
      intro c h hcl
      have hself : ∀ (i : Nat) (ef nt np : Bool), c ≤ i →
          ∀ x ∈ linearizeH (fuel' + 1) h i ef nt np, c ≤ x := by
        intro i ef nt np hi x hx
        rw [linearizeH] at hx
        rcases hr : hGet h i with _ | r <;> rw [hr] at hx
        · cases hx
        · rcases List.mem_append.mp hx with h1 | h1
          · split at h1
            · cases h1
            · rcases List.mem_singleton.mp h1 with rfl
              exact hi
          · exact (ih hcl).2 r.children nt np
              (fun y hy => hcl i r hi hr y hy) x h1
      constructor
      · exact hself
      · intro l nt np hl x hx
        induction l with
        | nil => rw [linearizeList] at hx; cases hx
        | cons y ys ihl =>
            rw [linearizeList] at hx
            rcases List.mem_append.mp hx with h1 | h1
            · exact hself y false nt np (hl y (List.mem_cons_self y ys)) x h1
            · exact ihl (fun z hz => hl z (List.mem_cons_of_mem y hz)) h1

mutual

/-- `Node.get_node_lineage` over the heap: the target id, its parent id and
its index among the parent's children (`parent._children.index(self)`). -/
def lineageH (fuel : Nat) (h : Heap) (cur target : Nat)
    (parent : Option Nat) : Option (Nat × Option Nat × Option Nat) :=
  match fuel with
  | 0 => none
  | fuel' + 1 =>
      if cur = target then
        some (cur, parent,
          match parent with
          | none => none
          | some p =>
              match hGet h p with
              | some r => some (r.children.indexOf cur)
              | none => none)
      else
        match hGet h cur with
        | none => none
        | some r => lineageList fuel' h r.children target cur
termination_by (fuel, 0)

def lineageList (fuel : Nat) (h : Heap) (l : List Nat)
    (target par : Nat) : Option (Nat × Option Nat × Option Nat) :=
  match l with
  | [] => none
  |c :: rest =>
      match lineageH fuel h c target (some par) with
      | some x => some x
      | none => lineageList fuel h rest target par
termination_by (fuel, l.length + 1)

end

theorem lineageH_zero (h : Heap) (cur target : Nat) (parent : Option Nat) :
    lineageH 0 h cur target parent = none := by
  rw [lineageH.eq_def]

theorem lineageH_succ (fuel' : Nat) (h : Heap) (cur target : Nat)
    (parent : Option Nat) :
    lineageH (fuel' + 1) h cur target parent =
      (if cur = target then
        some (cur, parent,
          match parent with
          | none => none
          | some p =>
              match hGet h p with
              | some r => some (r.children.indexOf cur)
              | none => none)
      else
        match hGet h cur with
        | none => none
        | some r => lineageList fuel' h r.children target cur) := by
  rw [lineageH.eq_def]

/-- A found parent of a lineage search started inside the working region is
itself in the working region. -/
theorem lineage_ge : ∀ (fuel : Nat) {c : Nat} {h : Heap},
    (∀ j r, c ≤ j → hGet h j = some r → ∀ ch ∈ r.children, c ≤ ch) →
    (∀ (cur target : Nat) (parent : Option Nat), c ≤ cur →
      (∀ pv, parent = some pv → c ≤ pv) →
      ∀ {n : Nat} {po : Option Nat} {io : Option Nat},
        lineageH fuel h cur target parent = some (n, po, io) →
        ∀ pv, po = some pv → c ≤ pv) ∧
    (∀ (l : List Nat) (target par : Nat), (∀ y ∈ l, c ≤ y) → c ≤ par →
      ∀ {n : Nat} {po : Option Nat} {io : Option Nat},
        lineageList fuel h l target par = some (n, po, io) →
        ∀ pv, po = some pv → c ≤ pv) := by
  intro fuel
  induction fuel with
  | zero =>
      intro c h hcl
      constructor
      · intro cur target parent hcur hpar n po io hlin
        rw [lineageH] at hlin
        cases hlin
      · intro l target par hl hpar n po io hlin
        induction l with
        | nil => rw [lineageList] at hlin; cases hlin
        | cons y ys ih =>
            rw [lineageList] at hlin
            rcases hy : lineageH 0 h y target (some par) with _ | x <;>
              rw [hy] at hlin
            · exact ih (fun z hz => hl z (List.mem_cons_of_mem y hz)) hlin
            · rw [lineageH_zero] at hy
              cases hy
  | succ fuel' ih =>
      intro c h hcl
      have hself : ∀ (cur target : Nat) (parent : Option Nat), c ≤ cur →
          (∀ pv, parent = some pv → c ≤ pv) →
          ∀ {n : Nat} {po : Option Nat} {io : Option Nat},
            lineageH (fuel' + 1) h cur target parent = some (n, po, io) →
            ∀ pv, po = some pv → c ≤ pv := by
        intro cur target parent hcur hpar n po io hlin
        rw [lineageH_succ] at hlin
        by_cases hct : cur = target
        · rw [if_pos hct] at hlin
          cases hlin
          exact hpar
        · rw [if_neg hct] at hlin
          rcases hr : hGet h cur with _ | r <;> rw [hr] at hlin
          · cases hlin
          · exact (ih hcl).2 r.children target cur
              (fun y hy => hcl cur r hcur hr y hy) hcur hlin
      constructor
      · exact hself
      · intro l target par hl hpar n po io hlin
        induction l with
        | nil => rw [lineageList] at hlin; cases hlin
        | cons y ys ihl =>
            rw [lineageList] at hlin
            rcases hy : lineageH (fuel' + 1) h y target (some par) with _ | x <;>
              rw [hy] at hlin
            · exact ihl (fun z hz => hl z (List.mem_cons_of_mem y hz)) hlin
            · cases hlin
              exact hself y target (some par)
                (hl y (List.mem_cons_self y ys))
                (fun pv hpv => by cases hpv; exact hpar) hy

/-- `ParseTree.replace_node` over the heap: locate the lineage of `old`
from the tree root; a `None` parent means `old` is the root, so the tree's
root pointer is reassigned; otherwise the parent's child slot is
overwritten in place.  Returns the heap and the (possibly new) root id. -/
def replaceNodeH (fuel : Nat) (h : Heap) (root old new : Nat) :
    Heap × Nat :=
  match lineageH fuel h root old none with
  | some (_, none, _) => (h, new)
  | some (_, some p, some idx) =>
      (match hGet h p with
       | some r => writeNode h p ⟨r.atom, r.children.set idx new⟩
       | none => h, root)
  | _ => (h, root)

theorem replaceNode_inv {c : Nat} {h₀ : Heap} (fuel : Nat) (h : Heap)
    (root old new : Nat) (inv : HInv c h₀ h) (hroot : c ≤ root)
    (hnew : c ≤ new) :
    HInv c h₀ (replaceNodeH fuel h root old new).1 ∧
      c ≤ (replaceNodeH fuel h root old new).2 := by
  rw [replaceNodeH]
  rcases hlin : lineageH fuel h root old none with _ | ⟨n, po, io⟩
  · exact ⟨inv, hroot⟩
  · rcases po with _ | p
    · exact ⟨inv, hnew⟩
    · have hp : c ≤ p :=
        (lineage_ge fuel inv.closed).1 root old none hroot
          (fun pv hpv => by cases hpv) hlin p rfl
      rcases io with _ | idx
      · exact ⟨inv, hroot⟩
      · show HInv c h₀ (match hGet h p with
          | some r => writeNode h p ⟨r.atom, r.children.set idx new⟩
          | none => h) ∧ c ≤ root
        rcases hr : hGet h p with _ | r
        · exact ⟨inv, hroot⟩
        · refine ⟨inv.write hp ?_, hroot⟩
          intro ch hch
          rcases List.mem_or_eq_of_mem_set hch with h1 | rfl
          · exact inv.closed p r hp hr ch h1
          · exact hnew

/-- `ParseTree._swap_nodes` over the heap: identical ids are a no-op; both
lineages are computed first, then each node is written into the other's
parent slot.  (The source would crash on an absent parent; the heap is not
modified in that case either.) -/
def swapH (fuel : Nat) (h : Heap) (root n1 n2 : Nat) : Heap :=
  if n1 = n2 then h
  else
    match lineageH fuel h root n1 none, lineageH fuel h root n2 none with
    | some (_, some p1, some i1), some (_, some p2, some i2) =>
        let h1 :=
          match hGet h p1 with
          | some r => writeNode h p1 ⟨r.atom, r.children.set i1 n2⟩
          | none => h
        (match hGet h1 p2 with
         | some r => writeNode h1 p2 ⟨r.atom, r.children.set i2 n1⟩
         | none => h1)
    | _, _ => h

theorem swapH_inv {c : Nat} {h₀ : Heap} (fuel : Nat) (h : Heap)
    (root n1 n2 : Nat) (inv : HInv c h₀ h) (hroot : c ≤ root)
    (h1 : c ≤ n1) (h2 : c ≤ n2) :
    HInv c h₀ (swapH fuel h root n1 n2) := by
  rw [swapH]
  by_cases heq : n1 = n2
  · rw [if_pos heq]; exact inv
  · rw [if_neg heq]
    rcases hlin1 : lineageH fuel h root n1 none with _ | ⟨m1, po1, io1⟩
    · exact inv
    · rcases hlin2 : lineageH fuel h root n2 none with _ | ⟨m2, po2, io2⟩
      · rcases po1 with _ | p1 <;> rcases io1 with _ | i1 <;> exact inv
      · rcases po1 with _ | p1
        · rcases po2 with _ | p2 <;> rcases io2 with _ | i2 <;> exact inv
        · rcases io1 with _ | i1
          · rcases po2 with _ | p2 <;> rcases io2 with _ | i2 <;> exact inv
          · rcases po2 with _ | p2
            · exact inv
            · rcases io2 with _ | i2
              · exact inv
              · have hp1 : c ≤ p1 :=
                  (lineage_ge fuel inv.closed).1 root n1 none hroot
                    (fun pv hpv => by cases hpv) hlin1 p1 rfl
                have hp2 : c ≤ p2 :=
                  (lineage_ge fuel inv.closed).1 root n2 none hroot
                    (fun pv hpv => by cases hpv) hlin2 p2 rfl
                have step1 : ∀ h' : Heap, HInv c h₀ h' →
                    ∀ (p : Nat) (nv : Nat), c ≤ p → c ≤ nv → ∀ (i : Nat),
                    HInv c h₀ (match hGet h' p with
                      | some r => writeNode h' p ⟨r.atom, r.children.set i nv⟩
                      | none => h') := by
                  intro h' inv' p nv hp hnv i
                  rcases hr : hGet h' p with _ | r
                  · exact inv'
                  · refine inv'.write hp ?_
                    intro ch hch
                    rcases List.mem_or_eq_of_mem_set hch with hm | rfl
                    · exact inv'.closed p r hp hr ch hm
                    · exact hnv
                exact step1 _ (step1 h inv p1 n2 hp1 h2 i1) p2 n1 hp2 h1 i2

/-- `random.sample(children, len(children))` driven by the draw oracle:
repeatedly pick (and remove) an element; exhausted draws return the rest in
order.  The result is a selection of elements of the input. -/
def sampleAll {α : Type} [Inhabited α] : List Nat → List α → List α
  | _, [] => []
  | [], c :: rest => c :: rest
  | d :: ds, c :: rest =>
      match (c :: rest).get? (d % (c :: rest).length) with
      | some x =>
          x :: sampleAll ds ((c :: rest).eraseIdx (d % (c :: rest).length))
      | none => c :: rest

theorem sampleAll_subset {α : Type} [Inhabited α] :
    ∀ (ds : List Nat) (cs : List α), ∀ x ∈ sampleAll ds cs, x ∈ cs := by
  intro ds
  induction ds with
  | nil =>
      intro cs x hx
      cases cs with
      | nil => rw [sampleAll] at hx; cases hx
      | cons c rest => rw [sampleAll] at hx; exact hx
  | cons d ds' ih =>
      intro cs x hx
      cases cs with
      | nil => rw [sampleAll] at hx; cases hx
      | cons c rest =>
          rw [sampleAll] at hx
          rcases hg : (c :: rest).get? (d % (c :: rest).length) with _ | y <;>
            rw [hg] at hx
          · exact hx
          · rcases List.mem_cons.mp hx with rfl | hx1
            · exact List.get?_mem hg
            · have := ih _ x hx1
              exact List.mem_of_mem_eraseIdx this

mutual

/-- `Node.get_depth` over the heap. -/
def depthH (fuel : Nat) (h : Heap) (i : Nat) : Nat :=
  match fuel with
  | 0 => 1
  | fuel' + 1 =>
      match hGet h i with
      | none => 1
      | some r =>
          if r.atom.arity = 0 then 1 else 1 + depthListMax fuel' h r.children
termination_by (fuel, 0)

def depthListMax (fuel : Nat) (h : Heap) (l : List Nat) : Nat :=
  match l with
  | [] => 0
  | c :: rest => max (depthH fuel h c) (depthListMax fuel h rest)
termination_by (fuel, l.length + 1)

end

mutual

/-- `Node.depth_of` over the heap: the 1-based level of `node` below `i`. -/
def depthOfH (fuel : Nat) (h : Heap) (i target level : Nat) : Option Nat :=
  match fuel with
  | 0 => none
  | fuel' + 1 =>
      if i = target then some level
      else
        match hGet h i with
        | none => none
        | some r => depthOfList fuel' h r.children target (level + 1)
termination_by (fuel, 0)

def depthOfList (fuel : Nat) (h : Heap) (l : List Nat)
    (target level : Nat) : Option Nat :=
  match l with
  | [] => none
  | c :: rest =>
      match depthOfH fuel h c target level with
      | some d => some d
      | none => depthOfList fuel h rest target level
termination_by (fuel, l.length + 1)

end

mutual

/-- `Node.eval()` (no keyword bindings) over the heap, as used by Editing
to fold a constant subexpression. -/
def evalHN (fuel : Nat) (h : Heap) (i : Nat) : Option ℚ :=
  match fuel with
  | 0 => none
  | fuel' + 1 =>
      match hGet h i with
      | none => none
      | some r =>
          if r.atom.arity = 0 then r.atom.evalA []
          else
            match evalHList fuel' h r.children with
            | some vs => r.atom.evalA vs
            | none => none
termination_by (fuel, 0)

def evalHList (fuel : Nat) (h : Heap) (l : List Nat) : Option (List ℚ) :=
  match l with
  | [] => some []
  | c :: rest =>
      match evalHN fuel h c, evalHList fuel h rest with
      | some v, some vs => some (v :: vs)
      | _, _ => none
termination_by (fuel, l.length + 1)

end

mutual

/-- Allocate a freshly generated pure tree (the result of
`PopulationGenerator.generate` for a mutation's replacement subtree) into
the heap, children first. -/
def allocTree (h : Heap) : PNode → Heap × Nat
  | .mk a cs =>
      let p := allocList h cs
      allocNode p.1 a p.2

def allocList (h : Heap) : List PNode → Heap × List Nat
  | [] => (h, [])
  | c :: rest =>
      let p1 := allocTree h c
      let p2 := allocList p1.1 rest
      (p2.1, p1.2 :: p2.2)

end

theorem allocTree_inv : ∀ {c : Nat} {h₀ : Heap} (t : PNode) (h : Heap),
    HInv c h₀ h → HInv c h₀ (allocTree h t).1 ∧ c ≤ (allocTree h t).2 := by
  have key : ∀ (t : PNode) (h : Heap) (c : Nat) (h₀ : Heap), HInv c h₀ h →
      HInv c h₀ (allocTree h t).1 ∧ c ≤ (allocTree h t).2 := by
    intro t
    induction t using PNode.inductionOn with
    | _ a cs ih =>
        have listKey : ∀ (l : List PNode), (∀ x ∈ l, ∀ (h : Heap) c h₀,
            HInv c h₀ h → HInv c h₀ (allocTree h x).1 ∧
              c ≤ (allocTree h x).2) →
            ∀ (h : Heap) c h₀, HInv c h₀ h →
              HInv c h₀ (allocList h l).1 ∧
                ∀ x ∈ (allocList h l).2, c ≤ x := by
          intro l
          induction l with
          | nil =>
              intro _ h c h₀ inv
              rw [allocList]
              exact ⟨inv, fun x hx => absurd hx (List.not_mem_nil x)⟩
          | cons y ys ihl =>
              intro hall h c h₀ inv
              rcases hall y (List.mem_cons_self y ys) h c h₀ inv with ⟨inv1, hge1⟩
              rcases ihl (fun x hx => hall x (List.mem_cons_of_mem y hx))
                (allocTree h y).1 c h₀ inv1 with ⟨inv2, hge2⟩
              rw [allocList]
              refine ⟨inv2, ?_⟩
              intro x hx
              rcases List.mem_cons.mp hx with rfl | hx1
              · exact hge1
              · exact hge2 x hx1
        intro h c h₀ inv
        rcases listKey cs (fun x hx h' c' h₀' inv' => ih x hx h' c' h₀' inv')
          h c h₀ inv with ⟨inv1, hge1⟩
        rw [allocTree]
        exact inv1.alloc hge1
  intro c h₀ t h inv
  exact key t h c h₀ inv

/-- `Selector.select` only *reads* the heap (fitness evaluation and the
stochastic subset draw) and returns one member of the population; which
member is the oracle's draw. -/
def selectIdx (pop : List Nat) (d : Nat) : Nat :=
  pop.getD (d % pop.length) 0

/-- `GeneticOperatorType` (`GPGeneticOperator.py`). -/
inductive GOType where
  | REPRODUCTION
  | CROSSOVER
  | MUTATION
  | PERMUTATION
  | EDITING
  | ENCAPSULATION
  | DECIMATION
  | INVERSION
  | HOIST
  | CREATE
  | COMPRESS
  | EXPAND

/-- Oracle for all stochastic choices made during one operator call, plus
the recursion fuel for heap walks and, for Mutation, the pure tree the
population generator returns for the replacement subtree. -/
structure OpDraws where
  fuel : Nat
  sel1 : Nat
  node1 : Nat
  perm : List Nat
  pairD1 : Nat
  pairDs : List Nat
  genTree : PNode
  crossAttempts : List (Nat × Nat × Nat × Nat)
  fallbackSel : Nat

/-- `reproduce` (and the placeholder operators `encapsulation`,
`decimation`, `create`, `compress`, `expand`, which select, clone and
return the clone unmodified): an unmodified clone of a selected parent. -/
def reproduceH (h : Heap) (pop : List Nat) (fuel sel : Nat) :
    Heap × List Nat :=
  let p := copyN fuel h (selectIdx pop sel)
  (p.1, [p.2])

/-- One pass of the `crossover` retry loop (per-attempt oracle draws:
two selector draws and two node draws), with the depth cap fixed by the
first attempt (`max_depth` is a parameter defaulting to `None` and is
assigned on first use), and the degenerate reproduce-twice fallback on
timeout. -/
def crossoverLoop (fuel : Nat) (h : Heap) (pop : List Nat)
    (maxdOpt : Option Nat) (fb : Nat) :
    List (Nat × Nat × Nat × Nat) → Heap × List Nat
  | [] =>
      let p1 := copyN fuel h (selectIdx pop fb)
      let p2 := copyN fuel p1.1 p1.2
      (p2.1, [p1.2, p2.2])
  | (d1, d2, n1, n2) :: restA =>
      let c1 := copyN fuel h (selectIdx pop d1)
      let c2 := copyN fuel c1.1 (selectIdx pop d2)
      let h2 := c2.1
      let maxd := maxdOpt.getD (max (depthH fuel h2 c1.2) (depthH fuel h2 c2.2))
      let opts1 := linearizeH fuel h2 c1.2 false false false
      let opts2 := linearizeH fuel h2 c2.2 false false false
      let s1 := opts1.getD (n1 % opts1.length) c1.2
      let s2 := opts2.getD (n2 % opts2.length) c2.2
      let r1 := replaceNodeH fuel h2 c1.2 s1 s2
      let r2 := replaceNodeH fuel r1.1 c2.2 s2 s1
      if depthH fuel r2.1 r1.2 ≤ maxd ∧ depthH fuel r2.1 r2.2 ≤ maxd then
        (r2.1, [r1.2, r2.2])
      else
        crossoverLoop fuel r2.1 pop (some maxd) fb restA

def crossoverH (h : Heap) (pop : List Nat) (dr : OpDraws) :
    Heap × List Nat :=
  crossoverLoop dr.fuel h pop none dr.fallbackSel (dr.crossAttempts.take 10)

/-- `mutation`: clone a selected parent, pick any node (root included),
compute the depth budget, and splice in a freshly generated and freshly
allocated subtree. -/
def mutationH (h : Heap) (pop : List Nat) (dr : OpDraws) :
    Heap × List Nat :=
  let child := copyN dr.fuel h (selectIdx pop dr.sel1)
  let h1 := child.1
  let opts := linearizeH dr.fuel h1 child.2 false false false
  let removed := opts.getD (dr.node1 % opts.length) child.2
  let newSub := allocTree h1 dr.genTree
  let res := replaceNodeH dr.fuel newSub.1 child.2 removed newSub.2
  (res.1, [res.2])

/-- `permutation`: clone, pick a non-terminal node, reorder its children in
place via `random.sample`. -/
def permutationH (h : Heap) (pop : List Nat) (dr : OpDraws) :
    Heap × List Nat :=
  let child := copyN dr.fuel h (selectIdx pop dr.sel1)
  let h1 := child.1
  match linearizeH dr.fuel h1 child.2 false true false with
  | [] => (h1, [child.2])
  | q :: rest =>
      match hGet h1 ((q :: rest).getD (dr.node1 % (q :: rest).length)
          child.2) with
      | some r =>
          (writeNode h1
            ((q :: rest).getD (dr.node1 % (q :: rest).length) child.2)
            ⟨r.atom, sampleAll dr.perm r.children⟩, [child.2])
      | none => (h1, [child.2])

/-- `editing`: clone, pick a non-terminal non-parameterized node; if none,
return the clone; else allocate a constant holding the node's evaluation
and splice it in. -/
def editingH (h : Heap) (pop : List Nat) (dr : OpDraws) : Heap × List Nat :=
  let child := copyN dr.fuel h (selectIdx pop dr.sel1)
  let h1 := child.1
  match linearizeH dr.fuel h1 child.2 false true true with
  | [] => (h1, [child.2])
  | q :: rest =>
      match evalHN dr.fuel h1
          ((q :: rest).getD (dr.node1 % (q :: rest).length) child.2) with
      | some v =>
          let cn := allocNode h1 (.Const v (constName v)) []
          let res := replaceNodeH dr.fuel cn.1 child.2
            ((q :: rest).getD (dr.node1 % (q :: rest).length) child.2) cn.2
          (res.1, [res.2])
      | none => (h1, [child.2])

mutual

/-- `Node.__lt__` over the heap: strict-descendant test. -/
def isDescH (fuel : Nat) (h : Heap) (self other : Nat) : Bool :=
  match fuel with
  | 0 => false
  | fuel' + 1 =>
      if self = other then false
      else
        match hGet h other with
        | none => false
        | some r => descList fuel' h self r.children
termination_by (fuel, 0)

def descList (fuel : Nat) (h : Heap) (self : Nat) (l : List Nat) : Bool :=
  match l with
  | [] => false
  | c :: rest =>
      (decide (self = c) || isDescH fuel h self c) || descList fuel h self rest
termination_by (fuel, l.length + 1)

end

/-- `Node.__or__` over the heap. -/
def indepH (fuel : Nat) (h : Heap) (a b : Nat) : Bool :=
  !(isDescH fuel h a b) && !(isDescH fuel h b a)

/-- `inversion`: clone, draw a non-descendant node pair (up to 10 retries,
falling back to the (root, root) no-op pair), and swap the two positions. -/
def inversionH (h : Heap) (pop : List Nat) (dr : OpDraws) :
    Heap × List Nat :=
  let child := copyN dr.fuel h (selectIdx pop dr.sel1)
  let h1 := child.1
  match linearizeH dr.fuel h1 child.2 true false false with
  | [] => (h1, [child.2])
  | q :: rest =>
      match (dr.pairDs.take 10).find? (fun d =>
          indepH dr.fuel h1
            ((q :: rest).getD (dr.pairD1 % (q :: rest).length) child.2)
            ((q :: rest).getD (d % (q :: rest).length) child.2)) with
      | some d =>
          (swapH dr.fuel h1 child.2
            ((q :: rest).getD (dr.pairD1 % (q :: rest).length) child.2)
            ((q :: rest).getD (d % (q :: rest).length) child.2),
           [child.2])
      | none => (h1, [child.2])

/-- `hoist`: clone, pick a non-terminal node, and return the tree rooted
there (`ParseTree.hoist` creates no new nodes and writes nothing). -/
def hoistH (h : Heap) (pop : List Nat) (dr : OpDraws) : Heap × List Nat :=
  let child := copyN dr.fuel h (selectIdx pop dr.sel1)
  let h1 := child.1
  match linearizeH dr.fuel h1 child.2 false true false with
  | [] => (h1, [child.2])
  | q :: rest =>
      (h1, [(q :: rest).getD (dr.node1 % (q :: rest).length) child.2])

/-- `GeneticOperatorSet.operate`: the `_operator_index` dispatch. -/
def operateH (h : Heap) (pop : List Nat) (dr : OpDraws) :
    GOType → Heap × List Nat
  | .REPRODUCTION => reproduceH h pop dr.fuel dr.sel1
  | .CROSSOVER => crossoverH h pop dr
  | .MUTATION => mutationH h pop dr
  | .PERMUTATION => permutationH h pop dr
  | .EDITING => editingH h pop dr
  | .ENCAPSULATION => reproduceH h pop dr.fuel dr.sel1
  | .DECIMATION => reproduceH h pop dr.fuel dr.sel1
  | .INVERSION => inversionH h pop dr
  | .HOIST => hoistH h pop dr
  | .CREATE => reproduceH h pop dr.fuel dr.sel1
  | .COMPRESS => reproduceH h pop dr.fuel dr.sel1
  | .EXPAND => reproduceH h pop dr.fuel dr.sel1

theorem getD_mod_mem_d {α : Type} (l : List α) (i : Nat) (d : α)
    (h : l ≠ []) : l.getD (i % l.length) d ∈ l := by
  have hlen : 0 < l.length := List.length_pos.mpr h
  have hlt : i % l.length < l.length := Nat.mod_lt i hlen
  rw [List.getD_eq_getElem?_getD, List.getElem?_eq_getElem hlt]
  exact List.getElem_mem hlt

theorem getD_mod_ge {c : Nat} {l : List Nat} {dflt : Nat}
    (hl : ∀ x ∈ l, c ≤ x) (hd : c ≤ dflt) (i : Nat) :
    c ≤ l.getD (i % l.length) dflt := by
  cases l with
  | nil => exact hd
  | cons y ys => exact hl _ (getD_mod_mem_d (y :: ys) i dflt (by simp))

theorem reproduceH_inv {c : Nat} {h₀ : Heap} (h : Heap) (pop : List Nat)
    (fuel sel : Nat) (inv : HInv c h₀ h) :
    HInv c h₀ (reproduceH h pop fuel sel).1 :=
  ((copy_inv fuel).1 h (selectIdx pop sel) inv).1

theorem crossoverLoop_inv :
    ∀ (attempts : List (Nat × Nat × Nat × Nat)) {c : Nat} {h₀ : Heap}
      (fuel : Nat) (h : Heap) (pop : List Nat) (maxdOpt : Option Nat)
      (fb : Nat), HInv c h₀ h →
      HInv c h₀ (crossoverLoop fuel h pop maxdOpt fb attempts).1 := by
  intro attempts
  induction attempts with
  | nil =>
      intro c h₀ fuel h pop maxdOpt fb inv
      rw [crossoverLoop]
      obtain ⟨inv1, h1⟩ := (copy_inv fuel).1 h (selectIdx pop fb) inv
      exact ((copy_inv fuel).1 _ _ inv1).1
  | cons a restA ih =>
      intro c h₀ fuel h pop maxdOpt fb inv
      rcases a with ⟨d1, d2, n1, n2⟩
      rw [crossoverLoop]
      obtain ⟨inv1, hc1⟩ := (copy_inv fuel).1 h (selectIdx pop d1) inv
      obtain ⟨inv2, hc2⟩ :=
        (copy_inv fuel).1 (copyN fuel h (selectIdx pop d1)).1
          (selectIdx pop d2) inv1
      have hs1 : c ≤ (linearizeH fuel
          (copyN fuel (copyN fuel h (selectIdx pop d1)).1 (selectIdx pop d2)).1
          (copyN fuel h (selectIdx pop d1)).2 false false false).getD
          (n1 % (linearizeH fuel
            (copyN fuel (copyN fuel h (selectIdx pop d1)).1 (selectIdx pop d2)).1
            (copyN fuel h (selectIdx pop d1)).2 false false false).length)
          (copyN fuel h (selectIdx pop d1)).2 :=
        getD_mod_ge
          (fun x hx => (linearize_ge fuel inv2.closed).1 _ false false false hc1 x hx)
          hc1 n1
      have hs2 : c ≤ (linearizeH fuel
          (copyN fuel (copyN fuel h (selectIdx pop d1)).1 (selectIdx pop d2)).1
          (copyN fuel (copyN fuel h (selectIdx pop d1)).1 (selectIdx pop d2)).2
          false false false).getD
          (n2 % (linearizeH fuel
            (copyN fuel (copyN fuel h (selectIdx pop d1)).1 (selectIdx pop d2)).1
            (copyN fuel (copyN fuel h (selectIdx pop d1)).1 (selectIdx pop d2)).2
            false false false).length)
          (copyN fuel (copyN fuel h (selectIdx pop d1)).1 (selectIdx pop d2)).2 :=
        getD_mod_ge
          (fun x hx => (linearize_ge fuel inv2.closed).1 _ false false false hc2 x hx)
          hc2 n2
      obtain ⟨inv3, hr1⟩ := replaceNode_inv fuel _ _ _ _ inv2 hc1 hs2
      obtain ⟨inv4, hr2⟩ := replaceNode_inv fuel _ _ _ _ inv3 hc2 hs1
      split
      · exact inv4
      · exact ih fuel _ pop _ fb inv4

theorem mutationH_inv {c : Nat} {h₀ : Heap} (h : Heap) (pop : List Nat)
    (dr : OpDraws) (inv : HInv c h₀ h) :
    HInv c h₀ (mutationH h pop dr).1 := by
  rw [mutationH]
  obtain ⟨inv1, hc⟩ := (copy_inv dr.fuel).1 h (selectIdx pop dr.sel1) inv
  obtain ⟨inv2, hn⟩ :=
    allocTree_inv dr.genTree (copyN dr.fuel h (selectIdx pop dr.sel1)).1 inv1
  exact (replaceNode_inv dr.fuel _ _ _ _ inv2 hc hn).1

theorem permutationH_inv {c : Nat} {h₀ : Heap} (h : Heap) (pop : List Nat)
    (dr : OpDraws) (inv : HInv c h₀ h) :
    HInv c h₀ (permutationH h pop dr).1 := by
  rw [permutationH]
  obtain ⟨inv1, hc⟩ := (copy_inv dr.fuel).1 h (selectIdx pop dr.sel1) inv
  split
  · exact inv1
  · next q rest hopts =>
      split
      · next r hg =>
          have htar : c ≤ (q :: rest).getD
              (dr.node1 % (q :: rest).length)
              (copyN dr.fuel h (selectIdx pop dr.sel1)).2 := by
            refine getD_mod_ge ?_ hc dr.node1
            intro x hx
            refine (linearize_ge dr.fuel inv1.closed).1 _ false true false
              hc x ?_
            rw [hopts]
            exact hx
          refine inv1.write htar ?_
          intro ch hch
          exact inv1.closed _ r htar hg ch
            (sampleAll_subset dr.perm r.children ch hch)
      · exact inv1

theorem editingH_inv {c : Nat} {h₀ : Heap} (h : Heap) (pop : List Nat)
    (dr : OpDraws) (inv : HInv c h₀ h) :
    HInv c h₀ (editingH h pop dr).1 := by
  rw [editingH]
  obtain ⟨inv1, hc⟩ := (copy_inv dr.fuel).1 h (selectIdx pop dr.sel1) inv
  split
  · exact inv1
  · next q rest hopts =>
      split
      · next v hv =>
          obtain ⟨inv2, hcn⟩ :=
            inv1.alloc (fun ch hch => absurd hch (List.not_mem_nil ch))
          exact (replaceNode_inv dr.fuel _ _ _ _ inv2 hc hcn).1
      · exact inv1

theorem inversionH_inv {c : Nat} {h₀ : Heap} (h : Heap) (pop : List Nat)
    (dr : OpDraws) (inv : HInv c h₀ h) :
    HInv c h₀ (inversionH h pop dr).1 := by
  rw [inversionH]
  obtain ⟨inv1, hc⟩ := (copy_inv dr.fuel).1 h (selectIdx pop dr.sel1) inv
  split
  · exact inv1
  · next q rest hopts =>
      have hge : ∀ (d : Nat), c ≤ (q :: rest).getD
          (d % (q :: rest).length)
          (copyN dr.fuel h (selectIdx pop dr.sel1)).2 := by
        intro d
        refine getD_mod_ge ?_ hc d
        intro x hx
        refine (linearize_ge dr.fuel inv1.closed).1 _ true false false hc x ?_
        rw [hopts]
        exact hx
      split
      · next d hfind =>
          exact swapH_inv dr.fuel _ _ _ _ inv1 hc (hge dr.pairD1) (hge d)
      · exact inv1

theorem hoistH_inv {c : Nat} {h₀ : Heap} (h : Heap) (pop : List Nat)
    (dr : OpDraws) (inv : HInv c h₀ h) :
    HInv c h₀ (hoistH h pop dr).1 := by
  rw [hoistH]
  obtain ⟨inv1, hc⟩ := (copy_inv dr.fuel).1 h (selectIdx pop dr.sel1) inv
  split
  · exact inv1
  · exact inv1

theorem operateH_inv {c : Nat} {h₀ : Heap} (h : Heap) (pop : List Nat)
    (dr : OpDraws) (op : GOType) (inv : HInv c h₀ h) :
    HInv c h₀ (operateH h pop dr op).1 := by
  cases op with
  | REPRODUCTION => exact reproduceH_inv h pop dr.fuel dr.sel1 inv
  | CROSSOVER =>
      exact crossoverLoop_inv (dr.crossAttempts.take 10) dr.fuel h pop none
        dr.fallbackSel inv
  | MUTATION => exact mutationH_inv h pop dr inv
  | PERMUTATION => exact permutationH_inv h pop dr inv
  | EDITING => exact editingH_inv h pop dr inv
  | ENCAPSULATION => exact reproduceH_inv h pop dr.fuel dr.sel1 inv
  | DECIMATION => exact reproduceH_inv h pop dr.fuel dr.sel1 inv
  | INVERSION => exact inversionH_inv h pop dr inv
  | HOIST => exact hoistH_inv h pop dr inv
  | CREATE => exact reproduceH_inv h pop dr.fuel dr.sel1 inv
  | COMPRESS => exact reproduceH_inv h pop dr.fuel dr.sel1 inv
  | EXPAND => exact reproduceH_inv h pop dr.fuel dr.sel1 inv

/-- Heap well-formedness: nothing is stored at or above the allocation
counter. -/
def HWF (h : Heap) : Prop := ∀ j, h.ctr ≤ j → hGet h j = none

/-- All child pointers stored in the heap dereference below the counter
(no dangling ids). -/
def PtrClosed (h : Heap) : Prop :=
  ∀ j r, hGet h j = some r → ∀ ch ∈ r.children, ch < h.ctr

mutual

/-- Read back the pure tree rooted at a heap id. -/
def denoteH (fuel : Nat) (h : Heap) (i : Nat) : Option PNode :=
  match fuel with
  | 0 => none
  | fuel' + 1 =>
      match hGet h i with
      | none => none
      | some r =>
          match denoteList fuel' h r.children with
          | some cs => some (.mk r.atom cs)
          | none => none
termination_by (fuel, 0)

def denoteList (fuel : Nat) (h : Heap) (l : List Nat) :
    Option (List PNode) :=
  match l with
  | [] => some []
  | c :: rest =>
      match denoteH fuel h c, denoteList fuel h rest with
      | some t, some ts => some (t :: ts)
      | _, _ => none
termination_by (fuel, l.length + 1)

end

/-- If every record below the cutoff is preserved and the original heap has
no dangling pointers, readback below the cutoff is unchanged. -/
theorem denote_frame : ∀ (fuel : Nat) {h h' : Heap},
    (∀ i, i < h.ctr → hGet h' i = hGet h i) → PtrClosed h →
    (∀ i, i < h.ctr → denoteH fuel h' i = denoteH fuel h i) ∧
    (∀ l : List Nat, (∀ y ∈ l, y < h.ctr) →
      denoteList fuel h' l = denoteList fuel h l) := by
  intro fuel
  induction fuel with
  | zero =>
      intro h h' hfr hcl
      constructor
      · intro i _
        rw [denoteH, denoteH]
      · intro l hl
        induction l with
        | nil => rw [denoteList, denoteList]
        | cons y ys ih =>
            rw [denoteList, denoteList, denoteH, denoteH,
              ih (fun z hz => hl z (List.mem_cons_of_mem y hz))]
  | succ fuel' ih =>
      intro h h' hfr hcl
      have hself : ∀ i, i < h.ctr →
          denoteH (fuel' + 1) h' i = denoteH (fuel' + 1) h i := by
        intro i hi
        rw [denoteH, denoteH, hfr i hi]
        rcases hr : hGet h i with _ | r
        · rfl
        · show (match denoteList fuel' h' r.children with
              | some cs => some (PNode.mk r.atom cs)
              | none => none) =
            (match denoteList fuel' h r.children with
              | some cs => some (PNode.mk r.atom cs)
              | none => none)
          rw [(ih hfr hcl).2 r.children (fun y hy => hcl i r hr y hy)]
      constructor
      · exact hself
      · intro l hl
        induction l with
        | nil => rw [denoteList, denoteList]
        | cons y ys ihl =>
            rw [denoteList, denoteList,
              hself y (hl y (List.mem_cons_self y ys)),
              ihl (fun z hz => hl z (List.mem_cons_of_mem y hz))]

/-- C9: every genetic operator in the set (reproduce, crossover, mutation,
permutation, editing, inversion, hoist, and the placeholder operators),
applied to any population over a well-formed heap, leaves every node record
below the entry allocation counter untouched, and hence every tree of the
input population reads back unchanged: all structural modification happens
on freshly copied clones, never on the selected parents. -/
theorem operators_never_mutate_parents (op : GOType) (h : Heap)
    (pop : List Nat) (dr : OpDraws) (hw : HWF h) (hp : PtrClosed h) :
    (∀ i, i < h.ctr → hGet (operateH h pop dr op).1 i = hGet h i) ∧
    (∀ fuel : Nat, ∀ root ∈ pop, root < h.ctr →
      denoteH fuel (operateH h pop dr op).1 root = denoteH fuel h root) := by
  have inv : HInv h.ctr h h :=
    HInv.init (le_refl _) (fun j hj r hr => by rw [hw j hj] at hr; cases hr)
  have inv' := operateH_inv h pop dr op inv
  refine ⟨inv'.frame, ?_⟩
  intro fuel root hroot hlt
  exact (denote_frame fuel inv'.frame hp).1 root hlt

def exHeap : Heap :=
  ⟨[(2, ⟨exAdd, [0, 1]⟩), (1, ⟨exVarX, []⟩), (0, ⟨exVarX, []⟩)], 3⟩

theorem exHeap_hwf : HWF exHeap := by
  intro j hj
  have hj3 : 3 ≤ j := hj
  have h2 : (j == (2 : Nat)) = false := by simp; omega
  have h1 : (j == (1 : Nat)) = false := by simp; omega
  have h0 : (j == (0 : Nat)) = false := by simp; omega
  rw [hGet, show exHeap.recs =
    [(2, ⟨exAdd, [0, 1]⟩), (1, ⟨exVarX, []⟩), (0, ⟨exVarX, []⟩)] from rfl]
  rw [List.lookup, h2, List.lookup, h1, List.lookup, h0, List.lookup]

theorem exHeap_ptrClosed : PtrClosed exHeap := by
  intro j r hr ch hch
  rw [hGet, show exHeap.recs =
    [(2, ⟨exAdd, [0, 1]⟩), (1, ⟨exVarX, []⟩), (0, ⟨exVarX, []⟩)] from rfl]
    at hr
  by_cases h2 : j = 2
  · subst h2
    rw [List.lookup, show ((2 : Nat) == (2 : Nat)) = true from rfl] at hr
    cases hr
    simp only [List.mem_cons, List.not_mem_nil, or_false] at hch
    rcases hch with rfl | rfl <;> norm_num [exHeap]
  · rw [List.lookup, show (j == (2 : Nat)) = false from by simp; omega] at hr
    by_cases h1 : j = 1
    · subst h1
      rw [List.lookup, show ((1 : Nat) == (1 : Nat)) = true from rfl] at hr
      cases hr
      cases hch
    · rw [List.lookup, show (j == (1 : Nat)) = false from by simp; omega] at hr
      by_cases h0 : j = 0
      · subst h0
        rw [List.lookup, show ((0 : Nat) == (0 : Nat)) = true from rfl] at hr
        cases hr
        cases hch
      · rw [List.lookup, show (j == (0 : Nat)) = false from by simp; omega,
          List.lookup] at hr
        cases hr

def exDraws : OpDraws :=
  ⟨5, 0, 0, [], 0, [], exVarNode, [], 0⟩

theorem operators_never_mutate_parents_witness :
    HWF exHeap ∧ PtrClosed exHeap ∧
    ((∀ i, i < exHeap.ctr →
        hGet (operateH exHeap [2] exDraws .MUTATION).1 i = hGet exHeap i) ∧
     (∀ fuel : Nat, ∀ root ∈ [2], root < exHeap.ctr →
        denoteH fuel (operateH exHeap [2] exDraws .MUTATION).1 root =
          denoteH fuel exHeap root)) :=
  ⟨exHeap_hwf, exHeap_ptrClosed,
   operators_never_mutate_parents .MUTATION exHeap [2] exDraws
     exHeap_hwf exHeap_ptrClosed⟩

end GP
